import Mathlib

/-!
# Verification of the intelligent-cpu-scheduler engine

Shallow embedding of `process.py` and `scheduler.py` (the scheduling core of
the repository) and proofs of the specification claims about them.

Modelling conventions:
* Python integers become `Int` (the GUI feeds plain `int`s; the `-1` sentinels
  require a signed type).
* The two float averages become `Rat`: the Python values are `total / count`
  on integer totals, which `Rat` models exactly.
* `copy.deepcopy` followed by pure-functional state passing: the Lean
  functions take the process list by value, so the "work on fresh copies"
  step is the identity here.
* Python's stable `list.sort` / `sorted` is modelled by an insertion sort,
  which computes the same (unique) stable ordering.
* The `while` loops of SJF / Priority / Round Robin are modelled with a fuel
  parameter (`Option` result, `none` = fuel exhausted); sufficiency of the
  fuel chosen by the top-level entry points is proved for valid inputs.
-/

namespace Sched

/-- Embeds the `Process` class of `process.py`: the four constructor inputs
plus the mutable scheduling state initialised in `Process.__init__`. -/
structure Process where
  p_id : Int
  arrival_time : Int
  burst_time : Int
  priority : Int
  remaining_burst_time : Int
  start_time : Int
  completion_time : Int
  waiting_time : Int
  turnaround_time : Int
deriving Repr, DecidableEq

/-- `Process.__init__` (process.py lines 8-28): the derived fields start as
`remaining_burst_time = burst_time` and `-1` sentinels. -/
def Process.make (p_id arrival_time burst_time priority : Int) : Process :=
  { p_id := p_id
    arrival_time := arrival_time
    burst_time := burst_time
    priority := priority
    remaining_burst_time := burst_time
    start_time := -1
    completion_time := -1
    waiting_time := -1
    turnaround_time := -1 }

/-- `Process.calculate_metrics` (process.py lines 30-52): once a completion
time is set, turnaround is completion minus arrival and waiting is turnaround
minus burst, clamped to 0 when negative. -/
def calculate_metrics (p : Process) : Process :=
  if p.completion_time ≠ -1 then
    let turnaround := p.completion_time - p.arrival_time
    let waiting := turnaround - p.burst_time
    { p with
        turnaround_time := turnaround
        waiting_time := if waiting < 0 then 0 else waiting }
  else
    { p with waiting_time := -1, turnaround_time := -1 }

/-- Occupant of a Gantt-chart slot: a process id or the `"Idle"` sentinel. -/
inductive Occupant where
  | idle : Occupant
  | pid (i : Int) : Occupant
deriving Repr, DecidableEq

/-- One Gantt-chart tuple `(occupant, start, end)` as built by scheduler.py. -/
structure GanttEntry where
  occupant : Occupant
  start : Int
  stop : Int
deriving Repr, DecidableEq

/-- One raw dispatch record of Round Robin: which process ran, from when to
when.  Instrumentation only: scheduler.py builds these intervals at lines
292-297 before (possibly) merging them into the previous Gantt entry; the
log of unmerged slices lets slice-granularity properties be stated. -/
structure Slice where
  p_id : Int
  start : Int
  stop : Int
deriving Repr, DecidableEq

/-- Stable insertion of one element into a sorted list (kept for modelling
Python's stable sorts). -/
def insertBy (le : Process → Process → Bool) (p : Process) : List Process → List Process
  | [] => [p]
  | q :: rest => if le p q then p :: q :: rest else q :: insertBy le p rest

/-- Stable sort, modelling Python's `sorted` / `list.sort` with a key: both
are stable, hence compute the same list. -/
def sortBy (le : Process → Process → Bool) : List Process → List Process
  | [] => []
  | p :: rest => insertBy le p (sortBy le rest)

/-- Comparator for `sorted(..., key=lambda p: p.arrival_time)`. -/
def byArrival (a b : Process) : Bool := decide (a.arrival_time ≤ b.arrival_time)

/-- Comparator for `key=lambda p: p.burst_time`. -/
def byBurst (a b : Process) : Bool := decide (a.burst_time ≤ b.burst_time)

/-- Comparator for `key=lambda p: p.priority`. -/
def byPriority (a b : Process) : Bool := decide (a.priority ≤ b.priority)

/-- Comparator for `key=lambda p: p.p_id`. -/
def byPid (a b : Process) : Bool := decide (a.p_id ≤ b.p_id)

/-- The loop of `fcfs` (scheduler.py lines 30-55): pop processes in arrival
order, emit an idle gap when the CPU would wait, then run each to
completion, accumulating Gantt entries, waiting/turnaround totals and the
completed list. -/
def fcfsLoop : List Process → Int → List GanttEntry → Int → Int → List Process →
    List GanttEntry × Int × Int × List Process
  | [], _, gantt, tw, tt, comp => (gantt, tw, tt, comp)
  | proc :: rest, t, gantt, tw, tt, comp =>
    let gantt := if t < proc.arrival_time then
        gantt ++ [⟨.idle, t, proc.arrival_time⟩] else gantt
    let t := if t < proc.arrival_time then proc.arrival_time else t
    let proc := { proc with start_time := t }
    let t' := t + proc.burst_time
    let proc := { proc with completion_time := t' }
    let gantt := gantt ++ [⟨.pid proc.p_id, t, t'⟩]
    let proc := calculate_metrics proc
    fcfsLoop rest t' gantt (tw + proc.waiting_time) (tt + proc.turnaround_time)
      (comp ++ [proc])

/-- `fcfs` (scheduler.py lines 8-66). -/
def fcfs (processes : List Process) : List GanttEntry × Rat × Rat × List Process :=
  let queue := sortBy byArrival processes
  let r := fcfsLoop queue 0 [] 0 0 []
  let comp := r.2.2.2
  if comp.isEmpty then ([], 0, 0, [])
  else
    (r.1, (r.2.1 : Rat) / (comp.length : Rat), (r.2.2.1 : Rat) / (comp.length : Rat),
      sortBy byPid comp)

/-- `min(p.arrival_time for p in remaining)` over a nonempty list (defaults
to 0 on `[]`, which the loops never use). -/
def minArrival : List Process → Int
  | [] => 0
  | p :: rest => rest.foldl (fun m q => min m q.arrival_time) p.arrival_time

/-- The shared loop of `sjf` (scheduler.py lines 92-134) and
`priority_scheduling` (lines 173-213), which are textually identical except
for the sort key used on the ready queue (`burst_time` vs `priority`).
Each iteration: filter the ready set, advance over an idle gap if it is
empty, stably sort the ready set by the key, dispatch its head to
completion, remove it from the remaining list.  Fuel models the `while`. -/
def npLoop (key : Process → Process → Bool) (n : Nat) :
    Nat → List Process → Int → List GanttEntry → Int → Int → List Process →
    Option (List GanttEntry × Int × Int × List Process)
  | 0, _, _, _, _, _, _ => none
  | fuel + 1, remaining, t, gantt, tw, tt, comp =>
    if n ≤ comp.length then some (gantt, tw, tt, comp)
    else
      let ready := remaining.filter fun p => decide (p.arrival_time ≤ t)
      let idle := ready.isEmpty
      let next := minArrival remaining
      let gantt := if idle = true ∧ t < next then gantt ++ [⟨.idle, t, next⟩] else gantt
      let t := if idle = true ∧ t < next then next else t
      let ready := if idle then remaining.filter fun p => decide (p.arrival_time ≤ t)
        else ready
      match (sortBy key ready).head? with
      | some proc =>
        let remaining := remaining.erase proc
        let proc := if proc.start_time = -1 then { proc with start_time := t } else proc
        let t' := t + proc.burst_time
        let proc := { proc with completion_time := t' }
        let gantt := gantt ++ [⟨.pid proc.p_id, t, t'⟩]
        let proc := calculate_metrics proc
        npLoop key n fuel remaining t' gantt (tw + proc.waiting_time)
          (tt + proc.turnaround_time) (comp ++ [proc])
      | none => npLoop key n fuel remaining t gantt tw tt comp

/-- Shared entry-point shape of `sjf` / `priority_scheduling`: sort by
arrival, run the loop (fuel = list length + 1: one process completes per
iteration, one final iteration observes the exit condition), average and
sort the completed list by id.  A `none` from the loop is unreachable and
mapped to the empty result. -/
def npRun (key : Process → Process → Bool) (processes : List Process) :
    List GanttEntry × Rat × Rat × List Process :=
  let plist := sortBy byArrival processes
  match npLoop key plist.length (plist.length + 1) plist 0 [] 0 0 [] with
  | none => ([], 0, 0, [])
  | some r =>
    let comp := r.2.2.2
    if comp.isEmpty then ([], 0, 0, [])
    else
      (r.1, (r.2.1 : Rat) / (comp.length : Rat), (r.2.2.1 : Rat) / (comp.length : Rat),
        sortBy byPid comp)

/-- `sjf` (scheduler.py lines 69-146). -/
def sjf (processes : List Process) : List GanttEntry × Rat × Rat × List Process :=
  npRun byBurst processes

/-- `priority_scheduling` (scheduler.py lines 149-225). -/
def priority_scheduling (processes : List Process) :
    List GanttEntry × Rat × Rat × List Process :=
  npRun byPriority processes

/-- The arrival-cursor loops of `round_robin` (scheduler.py lines 261-264 and
309-312): move every pending process whose arrival time is `≤ t` to the back
of the ready queue, re-initialising its remaining burst. -/
def enqueueArrivals (t : Int) : List Process → List Process → List Process × List Process
  | [], queue => ([], queue)
  | p :: rest, queue =>
    if p.arrival_time ≤ t then
      enqueueArrivals t rest (queue ++ [{ p with remaining_burst_time := p.burst_time }])
    else (p :: rest, queue)

/-- `completed_processes_dict[proc.p_id] = proc` on an insertion-ordered dict
(Python 3.7+ semantics): replace in place if the key exists, else append. -/
def dictInsert (comp : List Process) (p : Process) : List Process :=
  if comp.any fun q => decide (q.p_id = p.p_id) then
    comp.map fun q => if q.p_id = p.p_id then p else q
  else comp ++ [p]

/-- The `while` loop of `round_robin` (scheduler.py lines 259-324).  State:
`pending` is the suffix of the arrival-sorted list not yet reached by
`process_idx`, `queue` the FIFO ready queue, then current time, Gantt chart,
slice log (instrumentation, see `Slice`), waiting/turnaround totals and the
completed dict.  `last_gantt_entry` is always `gantt_chart[-1]` in the
Python code, so it is read back as `gantt.getLast?`. -/
def rrLoop (Q : Int) (n : Nat) :
    Nat → List Process → List Process → Int → List GanttEntry → List Slice →
    Int → Int → List Process →
    Option (List GanttEntry × List Slice × Int × Int × List Process)
  | 0, _, _, _, _, _, _, _, _ => none
  | fuel + 1, pending, queue, t, gantt, slices, tw, tt, comp =>
    if n ≤ comp.length then some (gantt, slices, tw, tt, comp)
    else
      match enqueueArrivals t pending queue with
      | (pending, queue) =>
        match queue with
        | [] =>
          match pending with
          | [] => some (gantt, slices, tw, tt, comp)
          | p :: _ =>
            let next := p.arrival_time
            if t < next then
              let gantt :=
                match gantt.getLast? with
                | none => gantt ++ [⟨.idle, t, next⟩]
                | some e =>
                  if e.occupant = .idle then
                    gantt.dropLast ++ [⟨.idle, e.start, next⟩]
                  else gantt ++ [⟨.idle, t, next⟩]
              rrLoop Q n fuel pending queue next gantt slices tw tt comp
            else rrLoop Q n fuel pending queue t gantt slices tw tt comp
        | proc :: queue =>
          let proc := if proc.start_time = -1 then { proc with start_time := t } else proc
          let slice := min Q proc.remaining_burst_time
          let proc := { proc with remaining_burst_time := proc.remaining_burst_time - slice }
          let t' := t + slice
          let gantt :=
            match gantt.getLast? with
            | some e =>
              if e.occupant = .pid proc.p_id ∧ e.stop = t then
                gantt.dropLast ++ [⟨e.occupant, e.start, t'⟩]
              else gantt ++ [⟨.pid proc.p_id, t, t'⟩]
            | none => gantt ++ [⟨.pid proc.p_id, t, t'⟩]
          let slices := slices ++ [⟨proc.p_id, t, t'⟩]
          match enqueueArrivals t' pending queue with
          | (pending, queue) =>
            if proc.remaining_burst_time = 0 then
              let proc := calculate_metrics { proc with completion_time := t' }
              rrLoop Q n fuel pending queue t' gantt slices
                (tw + proc.waiting_time) (tt + proc.turnaround_time)
                (dictInsert comp proc)
            else
              rrLoop Q n fuel pending (queue ++ [proc]) t' gantt slices tw tt comp

/-- Fuel for the Round Robin loop.  The loop performs at most
`ceil(burst/Q) ≤ burst` dispatches per process (each dispatch consumes at
least one unit of remaining burst since `Q ≥ 1`), at most one idle advance
per dispatch plus one, and one final exit iteration; this bound dominates
all of that for valid inputs. -/
def rrFuel (plist : List Process) : Nat :=
  2 * (plist.map fun p => p.burst_time.toNat + 1).sum + plist.length + 2

/-- `round_robin` (scheduler.py lines 228-336): validate the quantum, sort by
arrival, run the loop, average over `n` and sort the completed dict values by
id.  Fuel exhaustion (unreachable for valid inputs, proved below) is mapped
to a distinct error. -/
def round_robin (processes : List Process) (time_quantum : Int) :
    Except String (List GanttEntry × Rat × Rat × List Process) :=
  if time_quantum ≤ 0 then .error "Time quantum must be positive."
  else
    let plist := sortBy byArrival processes
    let n := plist.length
    match rrLoop time_quantum n (rrFuel plist) plist [] 0 [] [] 0 0 [] with
    | none => .error "loop did not terminate within fuel"
    | some (gantt, _, tw, tt, comp) =>
      if comp.isEmpty then .ok ([], 0, 0, [])
      else
        .ok (gantt, (tw : Rat) / (n : Rat), (tt : Rat) / (n : Rat), sortBy byPid comp)

/-- The raw dispatch log of `round_robin` (see `Slice`): the sequence of
executed slices before Gantt-entry merging.  `none` only on quantum
validation failure or fuel exhaustion. -/
def round_robin_slices (processes : List Process) (time_quantum : Int) :
    Option (List Slice) :=
  if time_quantum ≤ 0 then none
  else
    let plist := sortBy byArrival processes
    match rrLoop time_quantum plist.length (rrFuel plist) plist [] 0 [] [] 0 0 [] with
    | none => none
    | some (_, slices, _, _, _) => some slices

/-- Valid input per spec §6: non-empty, unique ids, `arrivalTime ≥ 0`,
`burstTime > 0`, `priority ≥ 0`.  Inputs are descriptors freshly built by
`Process.__init__` (the GUI constructs them exactly once and the engine
never mutates them), hence `start_time = -1`. -/
def ValidInput (ps : List Process) : Prop :=
  ps ≠ [] ∧ (ps.map Process.p_id).Nodup ∧
    ∀ p ∈ ps, 0 ≤ p.arrival_time ∧ 1 ≤ p.burst_time ∧ 0 ≤ p.priority ∧
      p.start_time = -1

instance : DecidablePred ValidInput := fun ps => by
  unfold ValidInput; infer_instance


/-! ## Timeline predicates (spec §3, "valid timeline") -/

/-- Adjacent entries meet exactly: each entry starts where the previous one
ended. -/
def Contiguous (g : List GanttEntry) : Prop :=
  List.Chain' (fun a b => a.stop = b.start) g

/-- No two adjacent entries have the same occupant. -/
def AdjDistinct (g : List GanttEntry) : Prop :=
  List.Chain' (fun a b => a.occupant ≠ b.occupant) g

/-- Every entry is a real interval. -/
def EntriesProper (g : List GanttEntry) : Prop :=
  ∀ e ∈ g, e.start < e.stop

/-- Start of the first entry (0 for the empty timeline). -/
def firstStart (g : List GanttEntry) : Int :=
  (g.head?.map GanttEntry.start).getD 0

/-- End of the last entry (0 for the empty timeline). -/
def lastStop (g : List GanttEntry) : Int :=
  (g.getLast?.map GanttEntry.stop).getD 0

/-- Summed durations of the non-IDLE entries. -/
def nonIdleSum (g : List GanttEntry) : Int :=
  ((g.filter fun e => decide (e.occupant ≠ .idle)).map
    fun e => e.stop - e.start).sum

instance : DecidablePred Contiguous := fun g => by unfold Contiguous; infer_instance
instance : DecidablePred AdjDistinct := fun g => by unfold AdjDistinct; infer_instance
instance : DecidablePred EntriesProper := fun g => by unfold EntriesProper; infer_instance

lemma lastStop_concat (g : List GanttEntry) (e : GanttEntry) :
    lastStop (g ++ [e]) = e.stop := by
  simp [lastStop]

lemma firstStart_concat (g : List GanttEntry) (e : GanttEntry) :
    firstStart (g ++ [e]) = if g = [] then e.start else firstStart g := by
  cases g <;> simp [firstStart]

lemma contiguous_concat {g : List GanttEntry} {e : GanttEntry}
    (h : Contiguous g) (he : lastStop g = e.start) : Contiguous (g ++ [e]) := by
  unfold Contiguous at *
  rw [List.chain'_append]
  refine ⟨h, List.chain'_singleton e, ?_⟩
  intro x hx y hy
  simp only [List.head?_cons, Option.mem_def, Option.some_inj] at hy
  subst hy
  simp only [Option.mem_def] at hx
  rw [← he]
  simp [lastStop, hx]

lemma adjDistinct_concat {g : List GanttEntry} {e : GanttEntry}
    (h : AdjDistinct g) (he : ∀ x, g.getLast? = some x → x.occupant ≠ e.occupant) :
    AdjDistinct (g ++ [e]) := by
  unfold AdjDistinct at *
  rw [List.chain'_append]
  refine ⟨h, List.chain'_singleton e, ?_⟩
  intro x hx y hy
  simp only [List.head?_cons, Option.mem_def, Option.some_inj] at hy
  subst hy
  exact he x hx

lemma entriesProper_concat {g : List GanttEntry} {e : GanttEntry}
    (h : EntriesProper g) (he : e.start < e.stop) : EntriesProper (g ++ [e]) := by
  intro x hx
  rcases List.mem_append.mp hx with hx | hx
  · exact h x hx
  · simp only [List.mem_singleton] at hx; subst hx; exact he

lemma nonIdleSum_concat (g : List GanttEntry) (e : GanttEntry) :
    nonIdleSum (g ++ [e]) =
      nonIdleSum g + (if e.occupant = .idle then 0 else e.stop - e.start) := by
  unfold nonIdleSum
  rw [List.filter_append, List.map_append, List.sum_append]
  by_cases h : e.occupant = .idle <;> simp [h]

lemma getLast?_concat' (g : List GanttEntry) (e : GanttEntry) :
    (g ++ [e]).getLast? = some e := by
  simp

/-! ## Facts about `calculate_metrics` -/

lemma calculate_metrics_eq {p : Process} (h : p.completion_time ≠ -1) :
    calculate_metrics p =
      { p with
          turnaround_time := p.completion_time - p.arrival_time
          waiting_time :=
            max 0 (p.completion_time - p.arrival_time - p.burst_time) } := by
  rcases lt_or_le (p.completion_time - p.arrival_time - p.burst_time) 0 with hw | hw
  · simp only [calculate_metrics, if_pos h, if_pos hw]
    rw [max_eq_left hw.le]
  · simp only [calculate_metrics, if_pos h, if_neg (not_lt.mpr hw)]
    rw [max_eq_right hw]

/-! ## Facts about the stable sort -/

lemma insertBy_perm (le : Process → Process → Bool) (p : Process) (l : List Process) :
    List.Perm (insertBy le p l) (p :: l) := by
  induction l with
  | nil => simp [insertBy]
  | cons q rest ih =>
    unfold insertBy
    by_cases h : le p q
    · simp [h]
    · rw [if_neg (by simpa using h)]
      exact (ih.cons q).trans (List.Perm.swap p q rest)

lemma sortBy_perm (le : Process → Process → Bool) (l : List Process) :
    List.Perm (sortBy le l) l := by
  induction l with
  | nil => simp [sortBy]
  | cons p rest ih =>
    unfold sortBy
    exact (insertBy_perm le p (sortBy le rest)).trans (ih.cons p)

lemma mem_sortBy {le : Process → Process → Bool} {l : List Process} {p : Process} :
    p ∈ sortBy le l ↔ p ∈ l :=
  (sortBy_perm le l).mem_iff

lemma sortBy_length (le : Process → Process → Bool) (l : List Process) :
    (sortBy le l).length = l.length :=
  (sortBy_perm le l).length_eq

lemma insertBy_pairwise {le : Process → Process → Bool}
    (htot : ∀ a b, le a b = true ∨ le b a = true)
    (htrans : ∀ a b c, le a b = true → le b c = true → le a c = true)
    {p : Process} {l : List Process}
    (h : l.Pairwise fun a b => le a b = true) :
    (insertBy le p l).Pairwise fun a b => le a b = true := by
  induction l with
  | nil => simp [insertBy]
  | cons q rest ih =>
    rcases List.pairwise_cons.mp h with ⟨hq, hrest⟩
    unfold insertBy
    by_cases hle : le p q
    · rw [if_pos hle]
      refine List.pairwise_cons.mpr ⟨?_, h⟩
      intro x hx
      rcases List.mem_cons.mp hx with rfl | hx
      · exact hle
      · exact htrans p q x hle (hq x hx)
    · rw [if_neg (by simpa using hle)]
      refine List.pairwise_cons.mpr ⟨?_, ih hrest⟩
      intro x hx
      have hx' := (insertBy_perm le p rest).mem_iff.mp hx
      rcases List.mem_cons.mp hx' with rfl | hx'
      · rcases htot q x with h' | h'
        · exact h'
        · exact absurd h' (by simpa using hle)
      · exact hq x hx'

lemma sortBy_pairwise {le : Process → Process → Bool}
    (htot : ∀ a b, le a b = true ∨ le b a = true)
    (htrans : ∀ a b c, le a b = true → le b c = true → le a c = true)
    (l : List Process) :
    (sortBy le l).Pairwise fun a b => le a b = true := by
  induction l with
  | nil => simp [sortBy]
  | cons p rest ih => exact insertBy_pairwise htot htrans ih

/-- The head of the stable sort is the first element of the input attaining
the minimum: everything strictly before it in the input is strictly greater. -/
lemma sortBy_head_firstMin {le : Process → Process → Bool} {l : List Process}
    {p : Process} (h : (sortBy le l).head? = some p) :
    ∃ l₁ l₂, l = l₁ ++ p :: l₂ ∧ ∀ q ∈ l₁, le q p = false := by
  induction l generalizing p with
  | nil => simp [sortBy] at h
  | cons a rest ih =>
    unfold sortBy at h
    rcases hs : (sortBy le rest).head? with _ | p'
    · have : sortBy le rest = [] := by
        cases h' : sortBy le rest with
        | nil => rfl
        | cons x xs => rw [h'] at hs; simp at hs
      rw [this] at h
      simp only [insertBy, List.head?_cons, Option.some_inj] at h
      subst h
      exact ⟨[], rest, rfl, by simp⟩
    · obtain ⟨s₁, hs₁⟩ : ∃ s₁, sortBy le rest = p' :: s₁ := by
        cases h' : sortBy le rest with
        | nil => rw [h'] at hs; simp at hs
        | cons x xs => rw [h'] at hs; simp at hs; exact ⟨xs, by rw [hs]⟩
      rw [hs₁] at h
      unfold insertBy at h
      by_cases hle : le a p'
      · rw [if_pos hle] at h
        simp only [List.head?_cons, Option.some_inj] at h
        subst h
        exact ⟨[], rest, rfl, by simp⟩
      · rw [if_neg (by simpa using hle)] at h
        simp only [List.head?_cons, Option.some_inj] at h
        subst h
        obtain ⟨l₁, l₂, hsplit, hgt⟩ := ih (by rw [hs₁]; rfl)
        exact ⟨a :: l₁, l₂, by rw [hsplit]; simp, by
          intro q hq
          rcases List.mem_cons.mp hq with rfl | hq
          · simpa using hle
          · exact hgt q hq⟩

/-- The head of the stable sort is a minimum for a total transitive
comparator. -/
lemma sortBy_head_min {le : Process → Process → Bool}
    (htot : ∀ a b, le a b = true ∨ le b a = true)
    (htrans : ∀ a b c, le a b = true → le b c = true → le a c = true)
    {l : List Process} {p : Process} (h : (sortBy le l).head? = some p) :
    ∀ q ∈ l, le p q = true := by
  intro q hq
  have hpw := sortBy_pairwise htot htrans l
  obtain ⟨s, hsrt⟩ : ∃ s, sortBy le l = p :: s := by
    cases h' : sortBy le l with
    | nil => rw [h'] at h; simp at h
    | cons x xs => rw [h'] at h; simp at h; exact ⟨xs, by rw [h]⟩
  have hq' : q ∈ sortBy le l := mem_sortBy.mpr hq
  rw [hsrt] at hq' hpw
  rcases List.mem_cons.mp hq' with rfl | hq'
  · rcases htot q q with h' | h' <;> exact h'
  · exact (List.pairwise_cons.mp hpw).1 q hq'

lemma sortBy_head_mem {le : Process → Process → Bool} {l : List Process}
    {p : Process} (h : (sortBy le l).head? = some p) : p ∈ l := by
  obtain ⟨l₁, l₂, hsplit, _⟩ := sortBy_head_firstMin h
  rw [hsplit]
  exact List.mem_append.mpr (Or.inr (List.mem_cons_self p l₂))

lemma sortBy_head_of_ne_nil (le : Process → Process → Bool) {l : List Process}
    (h : l ≠ []) : ∃ p, (sortBy le l).head? = some p := by
  have : sortBy le l ≠ [] := by
    intro h'
    exact h (List.eq_nil_of_length_eq_zero (by rw [← sortBy_length le l, h']; rfl))
  cases h' : sortBy le l with
  | nil => exact absurd h' this
  | cons x xs => exact ⟨x, by simp [h']⟩

/-! ## Facts about `minArrival` -/

lemma foldl_min_le_init (l : List Process) (a : Int) :
    l.foldl (fun m q => min m q.arrival_time) a ≤ a := by
  induction l generalizing a with
  | nil => simp
  | cons p rest ih =>
    simp only [List.foldl_cons]
    exact le_trans (ih (min a p.arrival_time)) (min_le_left _ _)

lemma foldl_min_le_mem (l : List Process) (a : Int) :
    ∀ p ∈ l, l.foldl (fun m q => min m q.arrival_time) a ≤ p.arrival_time := by
  induction l generalizing a with
  | nil => simp
  | cons q rest ih =>
    intro p hp
    rcases List.mem_cons.mp hp with rfl | hp
    · simp only [List.foldl_cons]
      exact le_trans (foldl_min_le_init rest _) (min_le_right _ _)
    · exact ih (min a q.arrival_time) p hp

lemma foldl_min_mem (l : List Process) (a : Int) :
    l.foldl (fun m q => min m q.arrival_time) a = a ∨
      ∃ p ∈ l, l.foldl (fun m q => min m q.arrival_time) a = p.arrival_time := by
  induction l generalizing a with
  | nil => simp
  | cons q rest ih =>
    simp only [List.foldl_cons]
    rcases ih (min a q.arrival_time) with h | ⟨p, hp, h⟩
    · rcases le_total a q.arrival_time with h' | h'
      · exact Or.inl (h.trans (min_eq_left h'))
      · exact Or.inr ⟨q, List.mem_cons_self q rest, h.trans (min_eq_right h')⟩
    · exact Or.inr ⟨p, List.mem_cons.mpr (Or.inr hp), h⟩

lemma minArrival_le {l : List Process} : ∀ p ∈ l, minArrival l ≤ p.arrival_time := by
  intro p hp
  cases l with
  | nil => cases hp
  | cons q rest =>
    unfold minArrival
    rcases List.mem_cons.mp hp with rfl | hp
    · exact foldl_min_le_init rest _
    · exact foldl_min_le_mem rest _ p hp

lemma minArrival_mem {l : List Process} (h : l ≠ []) :
    ∃ p ∈ l, p.arrival_time = minArrival l := by
  cases l with
  | nil => exact absurd rfl h
  | cons q rest =>
    unfold minArrival
    rcases foldl_min_mem rest q.arrival_time with h' | ⟨p, hp, h'⟩
    · exact ⟨q, List.mem_cons_self q rest, h'.symm⟩
    · exact ⟨p, List.mem_cons.mpr (Or.inr hp), h'.symm⟩

/-! ## The simulation invariant shared by FCFS / SJF / Priority -/

/-- Facts holding for every completed process of a non-preemptive run. -/
def PhiNP (p : Process) : Prop :=
  p.turnaround_time = p.completion_time - p.arrival_time ∧
  p.waiting_time = max 0 (p.turnaround_time - p.burst_time) ∧
  p.arrival_time ≤ p.start_time ∧
  p.start_time + p.burst_time = p.completion_time

instance : DecidablePred PhiNP := fun p => by unfold PhiNP; infer_instance

/-- Loop invariant of the FCFS / SJF / Priority simulations, relating the
not-yet-dispatched processes, the clock, the Gantt chart built so far and
the completed list. -/
structure SimInv (remaining : List Process) (t : Int) (gantt : List GanttEntry)
    (comp : List Process) : Prop where
  fresh : ∀ p ∈ remaining, p.start_time = -1 ∧ 0 ≤ p.arrival_time ∧ 1 ≤ p.burst_time
  tnn : 0 ≤ t
  contig : Contiguous gantt
  proper : EntriesProper gantt
  adj : AdjDistinct gantt
  first0 : firstStart gantt = 0
  lastT : lastStop gantt = t
  lastNI : ∀ e, gantt.getLast? = some e → e.occupant ≠ .idle
  occs : ∀ e ∈ gantt, e.occupant = .idle ∨ ∃ p ∈ comp, e.occupant = .pid p.p_id
  ids : ((comp ++ remaining).map Process.p_id).Nodup
  compPhi : ∀ p ∈ comp, PhiNP p
  compLe : ∀ p ∈ comp, p.completion_time ≤ t
  lastC : comp ≠ [] → ∃ p ∈ comp, p.completion_time = t
  sum : nonIdleSum gantt = (comp.map Process.burst_time).sum

lemma mem_of_getLast_opt {l : List GanttEntry} {e : GanttEntry}
    (h : l.getLast? = some e) : e ∈ l := by
  rcases List.eq_nil_or_concat l with rfl | ⟨l', x, rfl⟩
  · simp at h
  · simp only [List.concat_eq_append] at h ⊢
    rw [List.getLast?_concat] at h
    injection h with h
    subst h
    simp

/-- One dispatch step preserves the invariant.  `t₁` is the time after an
optional idle advance over `[t, t₁)`, `proc` the dispatched process, run to
completion at `t₁ + burst`; `remaining'` is the remaining list with `proc`
removed (stated as a permutation to cover both the FCFS pop and the
SJF/Priority `list.remove`). -/
lemma SimInv.dispatch {remaining : List Process} {t : Int} {gantt : List GanttEntry}
    {comp : List Process} (inv : SimInv remaining t gantt comp)
    {proc : Process} (hmem : proc ∈ remaining) (t₁ : Int)
    (ht₁ : t ≤ t₁) (harr : proc.arrival_time ≤ t₁)
    {remaining' : List Process}
    (hperm : List.Perm remaining (proc :: remaining')) :
    SimInv remaining' (t₁ + proc.burst_time)
      ((if t < t₁ then gantt ++ [⟨.idle, t, t₁⟩] else gantt) ++
        [⟨.pid proc.p_id, t₁, t₁ + proc.burst_time⟩])
      (comp ++ [{ proc with
          start_time := t₁
          completion_time := t₁ + proc.burst_time
          turnaround_time := t₁ + proc.burst_time - proc.arrival_time
          waiting_time :=
            max 0 (t₁ + proc.burst_time - proc.arrival_time - proc.burst_time) }]) := by
  set t' := t₁ + proc.burst_time with ht'
  set procF : Process :=
    { proc with
        start_time := t₁
        completion_time := t'
        turnaround_time := t' - proc.arrival_time
        waiting_time := max 0 (t' - proc.arrival_time - proc.burst_time) } with hprocF
  set gantt₁ := if t < t₁ then gantt ++ [⟨Occupant.idle, t, t₁⟩] else gantt with hgantt₁
  obtain ⟨hst, ha0, hb1⟩ := inv.fresh proc hmem
  have htt' : t₁ < t' := by omega
  have hdisj :
      List.Disjoint (comp.map Process.p_id) (remaining.map Process.p_id) := by
    have h := inv.ids
    rw [List.map_append] at h
    exact List.disjoint_of_nodup_append h
  -- facts about the state after the optional idle advance
  have h1 : Contiguous gantt₁ ∧ EntriesProper gantt₁ ∧ AdjDistinct gantt₁ ∧
      firstStart gantt₁ = 0 ∧ lastStop gantt₁ = t₁ ∧
      nonIdleSum gantt₁ = (comp.map Process.burst_time).sum ∧
      ∀ e ∈ gantt₁, e.occupant = .idle ∨ ∃ p ∈ comp, e.occupant = .pid p.p_id := by
    by_cases hlt : t < t₁
    · rw [hgantt₁, if_pos hlt]
      refine ⟨contiguous_concat inv.contig inv.lastT,
        entriesProper_concat inv.proper hlt,
        adjDistinct_concat inv.adj ?_, ?_, by rw [lastStop_concat], ?_, ?_⟩
      · intro x hx hc
        exact inv.lastNI x hx (by rw [hc])
      · rw [firstStart_concat]
        split
        · next hg =>
          have hl := inv.lastT
          rw [hg] at hl
          simp only [lastStop, List.getLast?_nil, Option.map_none', Option.getD_none] at hl
          show t = 0
          omega
        · exact inv.first0
      · rw [nonIdleSum_concat]
        simp [inv.sum]
      · intro e he
        rcases List.mem_append.mp he with he | he
        · exact inv.occs e he
        · simp only [List.mem_singleton] at he
          subst he
          exact Or.inl rfl
    · rw [hgantt₁, if_neg hlt]
      have ht₁t : t₁ = t := le_antisymm (not_lt.mp hlt) ht₁
      exact ⟨inv.contig, inv.proper, inv.adj, inv.first0, ht₁t ▸ inv.lastT,
        inv.sum, inv.occs⟩
  obtain ⟨hcg, hpg, hag, hfg, hlg, hsg, hog⟩ := h1
  have hmemrem' : ∀ p ∈ remaining', p ∈ remaining :=
    fun p hp => hperm.mem_iff.mpr (List.mem_cons.mpr (Or.inr hp))
  constructor
  · exact fun p hp => inv.fresh p (hmemrem' p hp)
  · omega
  · exact contiguous_concat hcg hlg
  · exact entriesProper_concat hpg htt'
  · refine adjDistinct_concat hag ?_
    intro x hx hc
    rcases hog x (mem_of_getLast_opt hx) with hxi | ⟨p, hp, hpx⟩
    · rw [hxi] at hc
      exact Occupant.noConfusion hc
    · rw [hpx] at hc
      have hpp : p.p_id = proc.p_id := by injection hc
      exact hdisj (List.mem_map_of_mem Process.p_id hp)
        (hpp ▸ List.mem_map_of_mem Process.p_id hmem)
  · rw [firstStart_concat]
    split
    · next hg =>
      rw [hg] at hlg
      simp only [lastStop, List.getLast?_nil, Option.map_none', Option.getD_none] at hlg
      show t₁ = 0
      omega
    · exact hfg
  · rw [lastStop_concat]
  · intro e he
    rw [getLast?_concat'] at he
    injection he with he
    subst he
    exact fun hc => Occupant.noConfusion hc
  · intro e he
    rcases List.mem_append.mp he with he | he
    · rcases hog e he with h | ⟨p, hp, hpe⟩
      · exact Or.inl h
      · exact Or.inr ⟨p, List.mem_append.mpr (Or.inl hp), hpe⟩
    · simp only [List.mem_singleton] at he
      subst he
      exact Or.inr ⟨procF, List.mem_append.mpr (Or.inr (List.mem_singleton.mpr rfl)), rfl⟩
  · have hpidF : procF.p_id = proc.p_id := rfl
    have hmapeq : ((comp ++ [procF]) ++ remaining').map Process.p_id =
        (comp ++ proc :: remaining').map Process.p_id := by
      simp [hpidF]
    rw [hmapeq]
    exact ((hperm.append_left comp).map Process.p_id).nodup inv.ids
  · intro p hp
    rcases List.mem_append.mp hp with hp | hp
    · exact inv.compPhi p hp
    · simp only [List.mem_singleton] at hp
      subst hp
      exact ⟨rfl, rfl, harr, rfl⟩
  · intro p hp
    rcases List.mem_append.mp hp with hp | hp
    · exact le_trans (inv.compLe p hp) (by omega)
    · simp only [List.mem_singleton] at hp
      subst hp
      exact le_refl _
  · intro _
    exact ⟨procF, List.mem_append.mpr (Or.inr (List.mem_singleton.mpr rfl)), rfl⟩
  · rw [nonIdleSum_concat, if_neg (fun h => Occupant.noConfusion h)]
    rw [List.map_append, List.sum_append, hsg]
    have hb : procF.burst_time = proc.burst_time := rfl
    simp only [List.map_cons, List.map_nil, List.sum_cons, List.sum_nil, hb]
    omega

/-- Master lemma for the FCFS loop: from an invariant state it returns a
state satisfying the invariant with nothing left to schedule, completing
exactly the queued processes. -/
lemma fcfsLoop_ok : ∀ (queue : List Process) (t : Int) (gantt : List GanttEntry)
    (tw tt : Int) (comp : List Process), SimInv queue t gantt comp →
    ∃ g w u c, fcfsLoop queue t gantt tw tt comp = (g, w, u, c) ∧
      SimInv [] (lastStop g) g c ∧
      c.map Process.burst_time =
        comp.map Process.burst_time ++ queue.map Process.burst_time ∧
      c.length = comp.length + queue.length := by
  intro queue
  induction queue with
  | nil =>
    intro t gantt tw tt comp inv
    refine ⟨gantt, tw, tt, comp, rfl, ?_, by simp, by simp⟩
    rw [inv.lastT]
    exact inv
  | cons proc rest ih =>
    intro t gantt tw tt comp inv
    obtain ⟨hst, ha0, hb1⟩ := inv.fresh proc (List.mem_cons_self _ _)
    have htnn := inv.tnn
    by_cases hlt : t < proc.arrival_time
    · have hcne : ({ proc with
          start_time := proc.arrival_time
          completion_time := proc.arrival_time + proc.burst_time } : Process).completion_time ≠ -1 := by
        show proc.arrival_time + proc.burst_time ≠ -1
        omega
      have inv' := inv.dispatch (List.mem_cons_self proc rest)
        proc.arrival_time (le_of_lt hlt) (le_refl _) (List.Perm.refl _)
      rw [if_pos hlt] at inv'
      simp only [fcfsLoop, if_pos hlt]
      rw [calculate_metrics_eq hcne]
      obtain ⟨g, w, u, c, heq, hinv, hmap, hlen⟩ := ih _ _ _ _ _ inv'
      refine ⟨g, w, u, c, heq, hinv, ?_, ?_⟩
      · rw [hmap]
        simp
      · rw [hlen]
        simp
        omega
    · have ht₁ : proc.arrival_time ≤ t := not_lt.mp hlt
      have hcne : ({ proc with
          start_time := t
          completion_time := t + proc.burst_time } : Process).completion_time ≠ -1 := by
        show t + proc.burst_time ≠ -1
        omega
      have inv' := inv.dispatch (List.mem_cons_self proc rest)
        t (le_refl _) ht₁ (List.Perm.refl _)
      rw [if_neg (lt_irrefl t)] at inv'
      simp only [fcfsLoop, if_neg hlt]
      rw [calculate_metrics_eq hcne]
      obtain ⟨g, w, u, c, heq, hinv, hmap, hlen⟩ := ih _ _ _ _ _ inv'
      refine ⟨g, w, u, c, heq, hinv, ?_, ?_⟩
      · rw [hmap]
        simp
      · rw [hlen]
        simp
        omega

/-- The invariant holds at the start of every simulation. -/
lemma SimInv.initial {ps : List Process}
    (hfresh : ∀ p ∈ ps, p.start_time = -1 ∧ 0 ≤ p.arrival_time ∧ 1 ≤ p.burst_time)
    (hids : (ps.map Process.p_id).Nodup) :
    SimInv ps 0 [] [] := by
  refine ⟨hfresh, le_refl 0, List.chain'_nil, ?_, List.chain'_nil, rfl, rfl, ?_, ?_, ?_,
    ?_, ?_, ?_, rfl⟩
  · intro e he
    cases he
  · intro e he
    cases he
  · intro e he
    cases he
  · simpa using hids
  · intro p hp
    cases hp
  · intro p hp
    cases hp
  · intro h
    exact absurd rfl h

/-- Bookkeeping step: completing one process preserves the burst multiset. -/
lemma perm_burst_step {comp remaining rem' : List Process} {proc procF : Process}
    (hperm : List.Perm remaining (proc :: rem'))
    (hb : procF.burst_time = proc.burst_time) :
    List.Perm ((comp ++ [procF]).map Process.burst_time ++ rem'.map Process.burst_time)
      (comp.map Process.burst_time ++ remaining.map Process.burst_time) := by
  have h1 : (comp ++ [procF]).map Process.burst_time ++ rem'.map Process.burst_time =
      comp.map Process.burst_time ++
        (proc.burst_time :: rem'.map Process.burst_time) := by
    simp [hb]
  rw [h1]
  exact ((hperm.map Process.burst_time).symm.append_left _)

/-- Master lemma for the SJF / Priority loop. -/
lemma npLoop_ok (key : Process → Process → Bool) :
    ∀ (fuel : Nat) (remaining : List Process) (t : Int) (gantt : List GanttEntry)
      (tw tt : Int) (comp : List Process) (n : Nat),
      comp.length + remaining.length = n →
      remaining.length < fuel →
      SimInv remaining t gantt comp →
      ∃ g w u c, npLoop key n fuel remaining t gantt tw tt comp = some (g, w, u, c) ∧
        SimInv [] (lastStop g) g c ∧
        List.Perm (c.map Process.burst_time)
          (comp.map Process.burst_time ++ remaining.map Process.burst_time) ∧
        c.length = n := by
  intro fuel
  induction fuel with
  | zero =>
    intro remaining t gantt tw tt comp n _ hf _
    exact absurd hf (Nat.not_lt_zero _)
  | succ fuel ih =>
    intro remaining t gantt tw tt comp n hcount hf inv
    by_cases hn : n ≤ comp.length
    · have hrem : remaining = [] := by
        have : remaining.length = 0 := by omega
        exact List.eq_nil_of_length_eq_zero this
      subst hrem
      refine ⟨gantt, tw, tt, comp, by simp [npLoop, hn], ?_, by simp, by omega⟩
      rw [inv.lastT]
      exact inv
    · have hremne : remaining ≠ [] := by
        intro h
        subst h
        simp at hcount
        omega
      have hlenpos : remaining.length ≠ 0 := by
        intro h
        exact hremne (List.eq_nil_of_length_eq_zero h)
      by_cases hready : (remaining.filter fun p => decide (p.arrival_time ≤ t)).isEmpty = true
      · -- idle advance to the minimum arrival, then dispatch
        have hallgt : ∀ p ∈ remaining, t < p.arrival_time := by
          intro p hp
          have h0 := List.isEmpty_iff.mp hready
          by_contra hc
          have : p ∈ remaining.filter fun p => decide (p.arrival_time ≤ t) :=
            List.mem_filter.mpr ⟨hp, by simpa using not_lt.mp hc⟩
          rw [h0] at this
          cases this
        obtain ⟨pm, hpm, hpmarr⟩ := minArrival_mem hremne
        have htlt : t < minArrival remaining := hpmarr ▸ hallgt pm hpm
        have hcond : ((remaining.filter fun p => decide (p.arrival_time ≤ t)).isEmpty
            = true ∧ t < minArrival remaining) := ⟨hready, htlt⟩
        have hready2 : (remaining.filter
            fun p => decide (p.arrival_time ≤ minArrival remaining)) ≠ [] := by
          intro h
          have : pm ∈ remaining.filter
              fun p => decide (p.arrival_time ≤ minArrival remaining) :=
            List.mem_filter.mpr ⟨hpm, by simpa using le_of_eq hpmarr⟩
          rw [h] at this
          cases this
        obtain ⟨proc, hhead⟩ := sortBy_head_of_ne_nil key hready2
        have hprocmem' := sortBy_head_mem hhead
        have hprocmem : proc ∈ remaining := (List.mem_filter.mp hprocmem').1
        have hprocarr : proc.arrival_time ≤ minArrival remaining := by
          have := (List.mem_filter.mp hprocmem').2
          simpa using this
        obtain ⟨hst, ha0, hb1⟩ := inv.fresh proc hprocmem
        have hperm := List.perm_cons_erase hprocmem
        have inv' := inv.dispatch hprocmem (minArrival remaining)
          (le_of_lt htlt) hprocarr hperm
        rw [if_pos htlt] at inv'
        have hlenerase : (remaining.erase proc).length + 1 = remaining.length := by
          rw [List.length_erase_of_mem hprocmem]
          omega
        obtain ⟨g, w, u, c, heq, hinv, hpm2, hlen⟩ :=
          ih (remaining.erase proc) (minArrival remaining + proc.burst_time) _
            (tw + max 0 (minArrival remaining + proc.burst_time - proc.arrival_time -
              proc.burst_time))
            (tt + (minArrival remaining + proc.burst_time - proc.arrival_time))
            (comp ++ [{ proc with
              start_time := minArrival remaining
              completion_time := minArrival remaining + proc.burst_time
              turnaround_time :=
                minArrival remaining + proc.burst_time - proc.arrival_time
              waiting_time := max 0 (minArrival remaining + proc.burst_time -
                proc.arrival_time - proc.burst_time) }]) n
            (by simp; omega) (by omega) inv'
        refine ⟨g, w, u, c, ?_, hinv, hpm2.trans (perm_burst_step hperm rfl), hlen⟩
        rw [npLoop]
        rw [if_neg hn]
        simp only [if_pos hcond]
        rw [if_pos hready]
        rw [hhead]
        have hcne : ({ proc with
            start_time := minArrival remaining
            completion_time := minArrival remaining +
              ({ proc with start_time := minArrival remaining } : Process).burst_time } :
              Process).completion_time ≠ -1 := by
          show minArrival remaining + proc.burst_time ≠ -1
          have := le_trans inv.tnn (le_of_lt htlt)
          omega
        simp only [if_pos hst, calculate_metrics_eq hcne]
        exact heq
      · -- some process is ready at the current time: dispatch it directly
        have hreadyne : (remaining.filter fun p => decide (p.arrival_time ≤ t)) ≠ [] := by
          intro h
          exact hready (by rw [h]; rfl)
        have hcondF : ¬((remaining.filter fun p => decide (p.arrival_time ≤ t)).isEmpty
            = true ∧ t < minArrival remaining) := fun h => hready h.1
        obtain ⟨proc, hhead⟩ := sortBy_head_of_ne_nil key hreadyne
        have hprocmem' := sortBy_head_mem hhead
        have hprocmem : proc ∈ remaining := (List.mem_filter.mp hprocmem').1
        have hprocarr : proc.arrival_time ≤ t := by
          have := (List.mem_filter.mp hprocmem').2
          simpa using this
        obtain ⟨hst, ha0, hb1⟩ := inv.fresh proc hprocmem
        have hperm := List.perm_cons_erase hprocmem
        have inv' := inv.dispatch hprocmem t (le_refl t) hprocarr hperm
        rw [if_neg (lt_irrefl t)] at inv'
        have hlenerase : (remaining.erase proc).length + 1 = remaining.length := by
          rw [List.length_erase_of_mem hprocmem]
          omega
        obtain ⟨g, w, u, c, heq, hinv, hpm2, hlen⟩ :=
          ih (remaining.erase proc) (t + proc.burst_time) _
            (tw + max 0 (t + proc.burst_time - proc.arrival_time - proc.burst_time))
            (tt + (t + proc.burst_time - proc.arrival_time))
            (comp ++ [{ proc with
              start_time := t
              completion_time := t + proc.burst_time
              turnaround_time := t + proc.burst_time - proc.arrival_time
              waiting_time :=
                max 0 (t + proc.burst_time - proc.arrival_time - proc.burst_time) }]) n
            (by simp; omega) (by omega) inv'
        refine ⟨g, w, u, c, ?_, hinv, hpm2.trans (perm_burst_step hperm rfl), hlen⟩
        rw [npLoop]
        rw [if_neg hn]
        simp only [if_neg hcondF]
        rw [if_neg hready]
        rw [hhead]
        have hcne : ({ proc with
            start_time := t
            completion_time := t +
              ({ proc with start_time := t } : Process).burst_time } :
              Process).completion_time ≠ -1 := by
          show t + proc.burst_time ≠ -1
          have := inv.tnn
          omega
        simp only [if_pos hst, calculate_metrics_eq hcne]
        exact heq

/-- What C1/C2/C10 need to know about a finished non-preemptive run. -/
structure ResultOK (ps : List Process) (g : List GanttEntry) (c : List Process) : Prop where
  contig : Contiguous g
  proper : EntriesProper g
  adj : AdjDistinct g
  first0 : firstStart g = 0
  compLe : ∀ p ∈ c, p.completion_time ≤ lastStop g
  lastC : ∃ p ∈ c, p.completion_time = lastStop g
  burstSum : nonIdleSum g = (ps.map Process.burst_time).sum
  compPhi : ∀ p ∈ c, PhiNP p
  compNe : c ≠ []

lemma validInput_initial {ps : List Process} (h : ValidInput ps) :
    SimInv (sortBy byArrival ps) 0 [] [] := by
  obtain ⟨hne, hids, hall⟩ := h
  refine SimInv.initial ?_ ?_
  · intro p hp
    obtain ⟨ha, hb, _, hs⟩ := hall p (mem_sortBy.mp hp)
    exact ⟨hs, ha, hb⟩
  · exact ((sortBy_perm byArrival ps).map Process.p_id).symm.nodup hids

lemma fcfs_result {ps : List Process} (h : ValidInput ps) :
    ∃ g w u c, fcfs ps = (g, w, u, c) ∧ ResultOK ps g c := by
  obtain ⟨g, w, u, c, heq, hinv, hmap, hlen⟩ :=
    fcfsLoop_ok (sortBy byArrival ps) 0 [] 0 0 [] (validInput_initial h)
  have hlen' : c.length = ps.length := by
    rw [hlen, sortBy_length]
    simp
  have hcne : c ≠ [] := by
    intro hc
    subst hc
    simp at hlen'
    exact h.1 (List.eq_nil_of_length_eq_zero hlen'.symm)
  have hsum : (c.map Process.burst_time).sum = (ps.map Process.burst_time).sum := by
    rw [hmap]
    simp
    exact ((sortBy_perm byArrival ps).map Process.burst_time).sum_eq
  refine ⟨g, (((fcfsLoop (sortBy byArrival ps) 0 [] 0 0 []).2.1 : Int) : Rat) / (c.length : Rat),
    (((fcfsLoop (sortBy byArrival ps) 0 [] 0 0 []).2.2.1 : Int) : Rat) / (c.length : Rat),
    sortBy byPid c, ?_, ?_⟩
  · simp only [fcfs]
    rw [heq]
    simp [hcne]
  · refine ⟨hinv.contig, hinv.proper, hinv.adj, hinv.first0, ?_, ?_, ?_, ?_, ?_⟩
    · intro p hp
      exact hinv.compLe p (mem_sortBy.mp hp)
    · obtain ⟨p, hp, hpc⟩ := hinv.lastC hcne
      exact ⟨p, mem_sortBy.mpr hp, hpc⟩
    · rw [hinv.sum, hsum]
    · intro p hp
      exact hinv.compPhi p (mem_sortBy.mp hp)
    · intro hc
      have := sortBy_length byPid c
      rw [hc] at this
      exact hcne (List.eq_nil_of_length_eq_zero this.symm)

lemma npRun_result (key : Process → Process → Bool) {ps : List Process}
    (h : ValidInput ps) :
    ∃ g w u c, npRun key ps = (g, w, u, c) ∧ ResultOK ps g c := by
  obtain ⟨g, w, u, c, heq, hinv, hperm, hlen⟩ :=
    npLoop_ok key ((sortBy byArrival ps).length + 1) (sortBy byArrival ps) 0 [] 0 0 []
      (sortBy byArrival ps).length (by simp) (by omega) (validInput_initial h)
  have hlen' : c.length = ps.length := by
    rw [hlen, sortBy_length]
  have hcne : c ≠ [] := by
    intro hc
    subst hc
    simp at hlen'
    exact h.1 (List.eq_nil_of_length_eq_zero hlen'.symm)
  have hsum : (c.map Process.burst_time).sum = (ps.map Process.burst_time).sum := by
    have h2 : List.Perm (c.map Process.burst_time) (ps.map Process.burst_time) := by
      refine hperm.trans ?_
      simp only [List.map_nil, List.nil_append]
      exact (sortBy_perm byArrival ps).map Process.burst_time
    exact h2.sum_eq
  refine ⟨g, (w : Rat) / (c.length : Rat), (u : Rat) / (c.length : Rat),
    sortBy byPid c, ?_, ?_⟩
  · simp only [npRun]
    rw [heq]
    simp [hcne]
  · refine ⟨hinv.contig, hinv.proper, hinv.adj, hinv.first0, ?_, ?_, ?_, ?_, ?_⟩
    · intro p hp
      exact hinv.compLe p (mem_sortBy.mp hp)
    · obtain ⟨p, hp, hpc⟩ := hinv.lastC hcne
      exact ⟨p, mem_sortBy.mpr hp, hpc⟩
    · rw [hinv.sum, hsum]
    · intro p hp
      exact hinv.compPhi p (mem_sortBy.mp hp)
    · intro hc
      have := sortBy_length byPid c
      rw [hc] at this
      exact hcne (List.eq_nil_of_length_eq_zero this.symm)

/-! ## Selection facts for SJF / Priority (claims C4, C5) -/

lemma key_total (f : Process → Int) (key : Process → Process → Bool)
    (hkey : ∀ a b, key a b = decide (f a ≤ f b)) :
    ∀ a b, key a b = true ∨ key b a = true := by
  intro a b
  rw [hkey, hkey]
  rcases le_total (f a) (f b) with h | h
  · exact Or.inl (decide_eq_true h)
  · exact Or.inr (decide_eq_true h)

lemma key_trans (f : Process → Int) (key : Process → Process → Bool)
    (hkey : ∀ a b, key a b = decide (f a ≤ f b)) :
    ∀ a b c, key a b = true → key b c = true → key a c = true := by
  intro a b c hab hbc
  rw [hkey] at hab hbc ⊢
  exact decide_eq_true (le_trans (of_decide_eq_true hab) (of_decide_eq_true hbc))

/-- What the ready-queue sort-and-take-head of SJF / Priority selects: a
ready process minimising the key, ties broken by smallest arrival time when
the working list is arrival-sorted (it always is), and remaining ties by
earliest {position in the working list} — the elements placed before the
winner in the ready list all have strictly larger keys. -/
lemma npSelect_spec (f : Process → Int) (key : Process → Process → Bool)
    (hkey : ∀ a b, key a b = decide (f a ≤ f b))
    {remaining : List Process} {t : Int} {proc : Process}
    (hhead : (sortBy key
      (remaining.filter fun p => decide (p.arrival_time ≤ t))).head? = some proc) :
    (proc ∈ remaining ∧ proc.arrival_time ≤ t) ∧
    (∀ q ∈ remaining, q.arrival_time ≤ t → f proc ≤ f q) ∧
    (remaining.Pairwise (fun a b => a.arrival_time ≤ b.arrival_time) →
      ∀ q ∈ remaining, q.arrival_time ≤ t → f proc = f q →
        proc.arrival_time ≤ q.arrival_time) ∧
    (∃ l₁ l₂, remaining.filter (fun p => decide (p.arrival_time ≤ t)) =
        l₁ ++ proc :: l₂ ∧ ∀ q ∈ l₁, f proc < f q) := by
  have hmem' := sortBy_head_mem hhead
  have hmem : proc ∈ remaining := (List.mem_filter.mp hmem').1
  have harr : proc.arrival_time ≤ t := by
    have := (List.mem_filter.mp hmem').2
    simpa using this
  obtain ⟨l₁, l₂, hsplit, hgt⟩ := sortBy_head_firstMin hhead
  have hgt' : ∀ q ∈ l₁, f proc < f q := by
    intro q hq
    have := hgt q hq
    rw [hkey] at this
    have := of_decide_eq_false this
    omega
  refine ⟨⟨hmem, harr⟩, ?_, ?_, l₁, l₂, hsplit, hgt'⟩
  · intro q hq hqt
    have hq' : q ∈ remaining.filter fun p => decide (p.arrival_time ≤ t) :=
      List.mem_filter.mpr ⟨hq, decide_eq_true hqt⟩
    have := sortBy_head_min (key_total f key hkey) (key_trans f key hkey) hhead q hq'
    rw [hkey] at this
    exact of_decide_eq_true this
  · intro hsorted q hq hqt hfeq
    have hq' : q ∈ remaining.filter fun p => decide (p.arrival_time ≤ t) :=
      List.mem_filter.mpr ⟨hq, decide_eq_true hqt⟩
    have hrsorted : (remaining.filter fun p => decide (p.arrival_time ≤ t)).Pairwise
        fun a b => a.arrival_time ≤ b.arrival_time := hsorted.filter _
    rw [hsplit] at hq' hrsorted
    rcases List.mem_append.mp hq' with hq1 | hq2
    · exact absurd hfeq (by have := hgt' q hq1; omega)
    · rcases List.mem_cons.mp hq2 with rfl | hq2
      · exact le_refl _
      · have := (List.pairwise_append.mp hrsorted).2.1
        exact (List.pairwise_cons.mp this).1 q hq2

/-- One non-idle iteration of the SJF / Priority loop, as a plain equation:
the selected process is removed from the working list, its start time is set
to the current clock, it runs uninterrupted to completion at `t + burst`
producing one timeline entry, and it is finalised. -/
lemma npLoop_dispatch_eq (key : Process → Process → Bool) (n fuel : Nat)
    (remaining : List Process) (t : Int) (gantt : List GanttEntry)
    (tw tt : Int) (comp : List Process) (proc : Process)
    (hn : ¬ n ≤ comp.length)
    (hready : ¬ (remaining.filter fun p => decide (p.arrival_time ≤ t)).isEmpty = true)
    (hhead : (sortBy key
      (remaining.filter fun p => decide (p.arrival_time ≤ t))).head? = some proc)
    (hst : proc.start_time = -1)
    (hc : t + proc.burst_time ≠ -1) :
    npLoop key n (fuel + 1) remaining t gantt tw tt comp =
      npLoop key n fuel (remaining.erase proc) (t + proc.burst_time)
        (gantt ++ [⟨.pid proc.p_id, t, t + proc.burst_time⟩])
        (tw + max 0 (t + proc.burst_time - proc.arrival_time - proc.burst_time))
        (tt + (t + proc.burst_time - proc.arrival_time))
        (comp ++ [{ proc with
          start_time := t
          completion_time := t + proc.burst_time
          turnaround_time := t + proc.burst_time - proc.arrival_time
          waiting_time :=
            max 0 (t + proc.burst_time - proc.arrival_time - proc.burst_time) }]) := by
  have hcondF : ¬((remaining.filter fun p => decide (p.arrival_time ≤ t)).isEmpty
      = true ∧ t < minArrival remaining) := fun h => hready h.1
  have hcne : ({ proc with
      start_time := t
      completion_time := t +
        ({ proc with start_time := t } : Process).burst_time } :
        Process).completion_time ≠ -1 := hc
  rw [npLoop]
  rw [if_neg hn]
  simp only [if_neg hcondF]
  rw [if_neg hready]
  rw [hhead]
  simp only [if_pos hst, calculate_metrics_eq hcne]

/-! ## Round Robin: invariant and helper lemmas -/

/-- Length of a dispatch slice. -/
def sliceLen (s : Slice) : Int := s.stop - s.start

/-- The dispatch slices of process `i`, in chronological order. -/
def slicesFor (i : Int) (l : List Slice) : List Slice :=
  l.filter fun s => decide (s.p_id = i)

lemma slicesFor_concat (i : Int) (l : List Slice) (s : Slice) :
    slicesFor i (l ++ [s]) = slicesFor i l ++ if s.p_id = i then [s] else [] := by
  unfold slicesFor
  rw [List.filter_append]
  by_cases h : s.p_id = i <;> simp [h]

/-- Facts holding for every completed process of a Round Robin run. -/
def PhiRR (p : Process) : Prop :=
  p.turnaround_time = p.completion_time - p.arrival_time ∧
  p.waiting_time = max 0 (p.turnaround_time - p.burst_time) ∧
  p.arrival_time ≤ p.start_time ∧
  p.start_time + p.burst_time ≤ p.completion_time ∧
  p.remaining_burst_time = 0

lemma exists_concat_of_getLast {l : List GanttEntry} {e : GanttEntry}
    (h : l.getLast? = some e) : ∃ g, l = g ++ [e] := by
  rcases List.eq_nil_or_concat l with rfl | ⟨g, x, rfl⟩
  · simp at h
  · simp only [List.concat_eq_append] at h ⊢
    rw [List.getLast?_concat] at h
    injection h with h
    subst h
    exact ⟨g, rfl⟩

lemma contiguous_extendLast {g : List GanttEntry} {e e' : GanttEntry}
    (h : Contiguous (g ++ [e])) (hs : e'.start = e.start) :
    Contiguous (g ++ [e']) := by
  unfold Contiguous at *
  rw [List.chain'_append] at h ⊢
  refine ⟨h.1, List.chain'_singleton e', ?_⟩
  intro x hx y hy
  simp only [List.head?_cons, Option.mem_def, Option.some_inj] at hy
  subst hy
  rw [hs]
  exact h.2.2 x hx e (by simp)

lemma adjDistinct_extendLast {g : List GanttEntry} {e e' : GanttEntry}
    (h : AdjDistinct (g ++ [e])) (ho : e'.occupant = e.occupant) :
    AdjDistinct (g ++ [e']) := by
  unfold AdjDistinct at *
  rw [List.chain'_append] at h ⊢
  refine ⟨h.1, List.chain'_singleton e', ?_⟩
  intro x hx y hy
  simp only [List.head?_cons, Option.mem_def, Option.some_inj] at hy
  subst hy
  rw [ho]
  exact h.2.2 x hx e (by simp)

lemma entriesProper_extendLast {g : List GanttEntry} {e e' : GanttEntry}
    (h : EntriesProper (g ++ [e])) (hp : e'.start < e'.stop) :
    EntriesProper (g ++ [e']) := by
  intro x hx
  rcases List.mem_append.mp hx with hx | hx
  · exact h x (List.mem_append.mpr (Or.inl hx))
  · simp only [List.mem_singleton] at hx
    subst hx
    exact hp

lemma firstStart_extendLast (e e' : GanttEntry) {g : List GanttEntry}
    (hs : e'.start = e.start) :
    firstStart (g ++ [e']) = firstStart (g ++ [e]) := by
  rw [firstStart_concat, firstStart_concat, hs]

/-- Characterisation of the enqueue-arrivals loop: it moves the maximal
ready prefix of `pending` (with `remaining_burst_time` re-initialised) to
the back of the queue and stops at the first process still in the future. -/
lemma enqueueArrivals_spec (t : Int) : ∀ (pending queue : List Process),
    ∃ moved pending', pending = moved ++ pending' ∧
      enqueueArrivals t pending queue =
        (pending', queue ++ moved.map fun p =>
          { p with remaining_burst_time := p.burst_time }) ∧
      (∀ p ∈ moved, p.arrival_time ≤ t) ∧
      (∀ p', pending'.head? = some p' → t < p'.arrival_time) := by
  intro pending
  induction pending with
  | nil =>
    intro queue
    exact ⟨[], [], rfl, by simp [enqueueArrivals], by simp, by simp⟩
  | cons p rest ih =>
    intro queue
    by_cases hp : p.arrival_time ≤ t
    · obtain ⟨moved, pending', hsplit, heq, hmoved, hhead⟩ :=
        ih (queue ++ [{ p with remaining_burst_time := p.burst_time }])
      refine ⟨p :: moved, pending', by rw [hsplit]; rfl, ?_, ?_, hhead⟩
      · unfold enqueueArrivals
        rw [if_pos hp, heq]
        simp
      · intro q hq
        rcases List.mem_cons.mp hq with rfl | hq
        · exact hp
        · exact hmoved q hq
    · refine ⟨[], p :: rest, rfl, ?_, by simp, ?_⟩
      · unfold enqueueArrivals
        rw [if_neg hp]
        simp
      · intro p' hp'
        simp only [List.head?_cons, Option.some_inj] at hp'
        subst hp'
        exact not_le.mp hp

/-- With fresh ids, the dict insertion of a completed process is an append. -/
lemma dictInsert_eq_append {comp : List Process} {p : Process}
    (h : ∀ q ∈ comp, q.p_id ≠ p.p_id) : dictInsert comp p = comp ++ [p] := by
  unfold dictInsert
  rw [if_neg]
  intro hc
  obtain ⟨q, hq, hqp⟩ := List.any_eq_true.mp hc
  exact h q hq (of_decide_eq_true hqp)

/-- Loop invariant of the Round Robin simulation. -/
structure RRInv (Q : Int) (pending queue : List Process) (t : Int)
    (gantt : List GanttEntry) (slices : List Slice) (comp : List Process) : Prop where
  hQ : 1 ≤ Q
  tnn : 0 ≤ t
  pendSorted : pending.Pairwise fun a b => a.arrival_time ≤ b.arrival_time
  pendFresh : ∀ p ∈ pending, p.start_time = -1 ∧ 0 ≤ p.arrival_time ∧ 1 ≤ p.burst_time
  queueOK : ∀ p ∈ queue, p.arrival_time ≤ t ∧ 0 ≤ p.arrival_time ∧ 1 ≤ p.burst_time ∧
    1 ≤ p.remaining_burst_time ∧
    ∃ k : Nat, (slicesFor p.p_id slices).map sliceLen = List.replicate k Q ∧
      p.remaining_burst_time = p.burst_time - k * Q ∧
      (p.start_time = -1 → k = 0) ∧
      (p.start_time ≠ -1 → p.arrival_time ≤ p.start_time ∧
        p.start_time + (p.burst_time - p.remaining_burst_time) ≤ t)
  compOK : ∀ p ∈ comp, PhiRR p
  compSlices : ∀ p ∈ comp, ∃ k : Nat, (slicesFor p.p_id slices).map sliceLen =
    List.replicate k Q ++ [if p.burst_time % Q = 0 then Q else p.burst_time % Q]
  compLe : ∀ p ∈ comp, p.completion_time ≤ t
  ids : ((comp ++ queue ++ pending).map Process.p_id).Nodup
  slicePid : ∀ s ∈ slices, s.p_id ∈ (comp ++ queue).map Process.p_id
  contig : Contiguous gantt
  proper : EntriesProper gantt
  adj : AdjDistinct gantt
  first0 : firstStart gantt = 0
  lastT : lastStop gantt = t
  idleLast : ∀ e, gantt.getLast? = some e → e.occupant = .idle →
    queue ≠ [] ∨ ∃ p pr, pending = p :: pr ∧ p.arrival_time ≤ t
  sum : nonIdleSum gantt =
    (queue.map fun p => p.burst_time - p.remaining_burst_time).sum +
      (comp.map Process.burst_time).sum
  lastC : queue = [] → pending = [] → comp ≠ [] → ∃ p ∈ comp, p.completion_time = t

/-- The invariant only sees the ready queue as a multiset. -/
lemma RRInv.permQueue {Q : Int} {pending queue queue' : List Process} {t : Int}
    {gantt : List GanttEntry} {slices : List Slice} {comp : List Process}
    (inv : RRInv Q pending queue t gantt slices comp)
    (h : List.Perm queue queue') :
    RRInv Q pending queue' t gantt slices comp := by
  have hqmem : ∀ p, p ∈ queue' ↔ p ∈ queue := fun p => h.symm.mem_iff
  refine ⟨inv.hQ, inv.tnn, inv.pendSorted, inv.pendFresh, ?_, inv.compOK,
    inv.compSlices, inv.compLe, ?_, ?_, inv.contig, inv.proper, inv.adj,
    inv.first0, inv.lastT, ?_, ?_, ?_⟩
  · intro p hp
    exact inv.queueOK p ((hqmem p).mp hp)
  · refine List.Nodup.perm inv.ids ?_
    exact ((h.append_left comp).append_right pending).map Process.p_id
  · intro s hs
    have := inv.slicePid s hs
    rw [List.map_append] at this ⊢
    rcases List.mem_append.mp this with h' | h'
    · exact List.mem_append.mpr (Or.inl h')
    · refine List.mem_append.mpr (Or.inr ?_)
      exact (h.map Process.p_id).mem_iff.mp h'
  · intro e he hid
    rcases inv.idleLast e he hid with h' | h'
    · left
      intro hc
      subst hc
      exact h' (List.eq_nil_of_length_eq_zero (by simpa using h.length_eq))
    · exact Or.inr h'
  · rw [inv.sum, (h.map fun p => p.burst_time - p.remaining_burst_time).sum_eq]
  · intro hq hp hc
    refine inv.lastC ?_ hp hc
    have hlq := h.length_eq
    rw [hq] at hlq
    simp only [List.length_nil] at hlq
    exact List.eq_nil_of_length_eq_zero hlq

/-- Enqueueing the arrived prefix of `pending` preserves the invariant. -/
lemma RRInv.enqueue {Q : Int} {pending queue t gantt slices comp}
    (inv : RRInv Q pending queue t gantt slices comp)
    {moved pending' : List Process}
    (hsplit : pending = moved ++ pending')
    (hmoved : ∀ p ∈ moved, p.arrival_time ≤ t) :
    RRInv Q pending' (queue ++ moved.map fun p =>
      { p with remaining_burst_time := p.burst_time }) t gantt slices comp := by
  have hmappid : (moved.map fun p =>
      ({ p with remaining_burst_time := p.burst_time } : Process)).map Process.p_id =
      moved.map Process.p_id := by
    rw [List.map_map]
    rfl
  have hdisj : List.Disjoint ((comp ++ queue).map Process.p_id)
      (pending.map Process.p_id) := by
    have h := inv.ids
    rw [List.map_append] at h
    exact List.disjoint_of_nodup_append h
  have hpendmem : ∀ p ∈ moved, p ∈ pending := by
    intro p hp
    rw [hsplit]
    exact List.mem_append.mpr (Or.inl hp)
  refine ⟨inv.hQ, inv.tnn, ?_, ?_, ?_, inv.compOK, inv.compSlices, inv.compLe,
    ?_, ?_, inv.contig, inv.proper, inv.adj, inv.first0, inv.lastT, ?_, ?_, ?_⟩
  · have := inv.pendSorted
    rw [hsplit] at this
    exact (List.pairwise_append.mp this).2.1
  · intro p hp
    refine inv.pendFresh p ?_
    rw [hsplit]
    exact List.mem_append.mpr (Or.inr hp)
  · intro p hp
    rcases List.mem_append.mp hp with hp | hp
    · exact inv.queueOK p hp
    · obtain ⟨q, hq, rfl⟩ := List.mem_map.mp hp
      obtain ⟨hqs, hqa, hqb⟩ := inv.pendFresh q (hpendmem q hq)
      refine ⟨hmoved q hq, hqa, hqb, hqb, 0, ?_, by push_cast; ring_nf, fun _ => rfl, ?_⟩
      · have hnot : ∀ s ∈ slices, ¬(s.p_id = q.p_id) := by
          intro s hs hc
          refine hdisj (hc ▸ inv.slicePid s hs) ?_
          exact List.mem_map_of_mem Process.p_id (hpendmem q hq)
        have : slicesFor q.p_id slices = [] := by
          unfold slicesFor
          exact List.filter_eq_nil_iff.mpr fun s hs => by
            simpa using hnot s hs
        rw [this]
        rfl
      · intro hc
        exact absurd hqs hc
  · have h := inv.ids
    have heq : ((comp ++ (queue ++ moved.map fun p =>
        ({ p with remaining_burst_time := p.burst_time } : Process)) ++ pending').map
          Process.p_id) =
        ((comp ++ queue ++ pending).map Process.p_id) := by
      rw [hsplit]
      simp only [List.map_append, hmappid, List.append_assoc]
    rw [heq]
    exact h
  · intro s hs
    have := inv.slicePid s hs
    rw [List.map_append] at this ⊢
    rcases List.mem_append.mp this with h' | h'
    · exact List.mem_append.mpr (Or.inl h')
    · refine List.mem_append.mpr (Or.inr ?_)
      rw [List.map_append]
      exact List.mem_append.mpr (Or.inl h')
  · intro e he hid
    rcases inv.idleLast e he hid with h' | ⟨p, pr, hpend, hparr⟩
    · left
      intro hc
      exact h' (by simpa using (List.append_eq_nil.mp hc).1)
    · rcases moved with _ | ⟨m, ms⟩
      · right
        refine ⟨p, pr, ?_, hparr⟩
        rw [hsplit] at hpend
        simpa using hpend
      · left
        simp
  · rw [inv.sum]
    have : ((moved.map fun p =>
        ({ p with remaining_burst_time := p.burst_time } : Process)).map
          fun p => p.burst_time - p.remaining_burst_time).sum = 0 := by
      rw [List.map_map]
      refine List.sum_eq_zero ?_
      intro x hx
      obtain ⟨q, _, rfl⟩ := List.mem_map.mp hx
      show q.burst_time - q.burst_time = 0
      ring
    rw [List.map_append, List.sum_append, this]
    ring
  · intro hq hp hc
    obtain ⟨hq1, hq2⟩ := List.append_eq_nil.mp hq
    have hmv : moved = [] := by
      cases moved with
      | nil => rfl
      | cons m ms => simp at hq2
    refine inv.lastC hq1 ?_ hc
    rw [hsplit, hmv, hp]
    rfl

/-- Advancing over an idle gap to the next arrival preserves the invariant. -/
lemma RRInv.idleAdvance {Q : Int} {p : Process} {pr : List Process} {t : Int}
    {gantt : List GanttEntry} {slices : List Slice} {comp : List Process}
    (inv : RRInv Q (p :: pr) [] t gantt slices comp)
    (hlt : t < p.arrival_time) :
    RRInv Q (p :: pr) [] p.arrival_time
      (gantt ++ [⟨.idle, t, p.arrival_time⟩]) slices comp := by
  have hlastNI : ∀ e, gantt.getLast? = some e → e.occupant ≠ .idle := by
    intro e he hid
    rcases inv.idleLast e he hid with h | ⟨q, qr, hpend, hqarr⟩
    · exact h rfl
    · injection hpend with h1 _
      subst h1
      omega
  have ha0 : 0 ≤ p.arrival_time := (inv.pendFresh p (List.mem_cons_self _ _)).2.1
  refine ⟨inv.hQ, ha0, inv.pendSorted, inv.pendFresh, ?_, inv.compOK,
    inv.compSlices, ?_, inv.ids, inv.slicePid, ?_, ?_, ?_, ?_, ?_, ?_, ?_, ?_⟩
  · intro q hq
    cases hq
  · intro q hq
    exact le_trans (inv.compLe q hq) (le_of_lt hlt)
  · exact contiguous_concat inv.contig inv.lastT
  · exact entriesProper_concat inv.proper hlt
  · refine adjDistinct_concat inv.adj ?_
    intro x hx hc
    exact hlastNI x hx (by rw [hc])
  · rw [firstStart_concat]
    split
    · next hg =>
      have hl := inv.lastT
      rw [hg] at hl
      simp only [lastStop, List.getLast?_nil, Option.map_none', Option.getD_none] at hl
      show t = 0
      omega
    · exact inv.first0
  · rw [lastStop_concat]
  · intro e he _
    exact Or.inr ⟨p, pr, rfl, le_refl _⟩
  · rw [nonIdleSum_concat]
    simp [inv.sum]
  · intro _ hp _
    cases hp

/-- Facts about the Gantt chart after appending a fresh process entry. -/
lemma rr_gantt_append_facts {gantt : List GanttEntry} {t t' i : Int}
    (hcontig : Contiguous gantt) (hproper : EntriesProper gantt)
    (hadj : AdjDistinct gantt) (hfirst : firstStart gantt = 0)
    (hlast : lastStop gantt = t) (htt : t < t')
    (hocc : ∀ e, gantt.getLast? = some e → e.occupant ≠ .pid i) :
    Contiguous (gantt ++ [⟨.pid i, t, t'⟩]) ∧
    EntriesProper (gantt ++ [⟨.pid i, t, t'⟩]) ∧
    AdjDistinct (gantt ++ [⟨.pid i, t, t'⟩]) ∧
    firstStart (gantt ++ [⟨.pid i, t, t'⟩]) = 0 ∧
    lastStop (gantt ++ [⟨.pid i, t, t'⟩]) = t' ∧
    nonIdleSum (gantt ++ [⟨.pid i, t, t'⟩]) = nonIdleSum gantt + (t' - t) ∧
    (∀ e : GanttEntry, (gantt ++ [(⟨.pid i, t, t'⟩ : GanttEntry)]).getLast? = some e →
      e.occupant = .pid i) := by
  refine ⟨?_, ?_, ?_, ?_, lastStop_concat _ _, ?_, ?_⟩
  · exact contiguous_concat hcontig hlast
  · exact entriesProper_concat hproper htt
  · refine adjDistinct_concat hadj ?_
    intro x hx hc
    exact hocc x hx (by rw [hc])
  · rw [firstStart_concat]
    split
    · next hg =>
      rw [hg] at hlast
      simp only [lastStop, List.getLast?_nil, Option.map_none', Option.getD_none] at hlast
      show t = 0
      omega
    · exact hfirst
  · rw [nonIdleSum_concat]
    simp
  · intro e he
    rw [getLast?_concat'] at he
    injection he with he
    subst he
    rfl

/-- Facts about the Gantt chart after merging the new run into the previous
entry for the same process. -/
lemma rr_gantt_merge_facts {g₀ : List GanttEntry} {e : GanttEntry} {t t' i : Int}
    (hcontig : Contiguous (g₀ ++ [e])) (hproper : EntriesProper (g₀ ++ [e]))
    (hadj : AdjDistinct (g₀ ++ [e])) (hfirst : firstStart (g₀ ++ [e]) = 0)
    (hlast : lastStop (g₀ ++ [e]) = t) (htt : t < t')
    (hocc : e.occupant = .pid i) :
    Contiguous (g₀ ++ [⟨e.occupant, e.start, t'⟩]) ∧
    EntriesProper (g₀ ++ [⟨e.occupant, e.start, t'⟩]) ∧
    AdjDistinct (g₀ ++ [⟨e.occupant, e.start, t'⟩]) ∧
    firstStart (g₀ ++ [⟨e.occupant, e.start, t'⟩]) = 0 ∧
    lastStop (g₀ ++ [⟨e.occupant, e.start, t'⟩]) = t' ∧
    nonIdleSum (g₀ ++ [⟨e.occupant, e.start, t'⟩]) = nonIdleSum (g₀ ++ [e]) + (t' - t) ∧
    (∀ x : GanttEntry, (g₀ ++ [(⟨e.occupant, e.start, t'⟩ : GanttEntry)]).getLast? = some x →
      x.occupant = .pid i) := by
  have hstop : e.stop = t := by
    rw [lastStop_concat] at hlast
    exact hlast
  have hse : e.start < e.stop := hproper e (List.mem_append.mpr (Or.inr (by simp)))
  refine ⟨?_, ?_, ?_, ?_, lastStop_concat _ _, ?_, ?_⟩
  · exact contiguous_extendLast hcontig rfl
  · refine entriesProper_extendLast hproper ?_
    show e.start < t'
    omega
  · exact adjDistinct_extendLast hadj rfl
  · rw [firstStart_extendLast e ⟨e.occupant, e.start, t'⟩ rfl]
    exact hfirst
  · rw [nonIdleSum_concat, nonIdleSum_concat]
    have : ¬ e.occupant = Occupant.idle := by
      rw [hocc]
      exact fun hc => Occupant.noConfusion hc
    rw [if_neg this]
    simp only [if_neg this]
    omega
  · intro x hx
    rw [getLast?_concat'] at hx
    injection hx with hx
    subst hx
    exact hocc

lemma slicesFor_concat_ne {i : Int} {l : List Slice} {s : Slice} (h : ¬ s.p_id = i) :
    slicesFor i (l ++ [s]) = slicesFor i l := by
  rw [slicesFor_concat, if_neg h]
  simp

lemma slicesFor_concat_eq {i : Int} {l : List Slice} {s : Slice} (h : s.p_id = i) :
    slicesFor i (l ++ [s]) = slicesFor i l ++ [s] := by
  rw [slicesFor_concat, if_pos h]

/-- Distinct-id facts for the process at the head of the ready queue. -/
lemma rr_pid_facts {comp rest pending : List Process} {proc : Process}
    (h : ((comp ++ (proc :: rest) ++ pending).map Process.p_id).Nodup) :
    (∀ q ∈ comp, q.p_id ≠ proc.p_id) ∧ (∀ q ∈ rest, q.p_id ≠ proc.p_id) ∧
    (∀ q ∈ pending, q.p_id ≠ proc.p_id) := by
  rw [List.map_append] at h
  have hpend := List.disjoint_of_nodup_append h
  have hn1 := h.of_append_left
  rw [List.map_append] at hn1
  have hcomp := List.disjoint_of_nodup_append hn1
  have hn2 := hn1.of_append_right
  rw [List.map_cons] at hn2
  have hrest := (List.nodup_cons.mp hn2).1
  refine ⟨?_, ?_, ?_⟩
  · intro q hq hc
    exact hcomp (List.mem_map_of_mem Process.p_id hq)
      (hc ▸ List.mem_map.mpr ⟨proc, List.mem_cons_self _ _, rfl⟩)
  · intro q hq hc
    exact hrest (hc ▸ List.mem_map_of_mem Process.p_id hq)
  · intro q hq hc
    refine hpend ?_ (List.mem_map_of_mem Process.p_id hq)
    rw [hc]
    exact List.mem_map_of_mem Process.p_id
      (List.mem_append.mpr (Or.inr (List.mem_cons_self _ _)))

/-- Dispatching the head of the ready queue for a full quantum and
re-queueing it preserves the invariant.  `p₁` is the head after the
conditional start-time update, `p₂` is `p₁` with the quantum deducted and
`g'` the already-updated Gantt chart. -/
lemma RRInv.dispatchRequeue {Q : Int} {pending rest : List Process} {t : Int}
    {gantt g' : List GanttEntry} {slices : List Slice} {comp : List Process}
    {proc p₁ p₂ : Process}
    (inv : RRInv Q pending (proc :: rest) t gantt slices comp)
    (hQr : Q < proc.remaining_burst_time)
    (h1pid : p₁.p_id = proc.p_id)
    (h1arr : p₁.arrival_time = proc.arrival_time)
    (h1b : p₁.burst_time = proc.burst_time)
    (h1rem : p₁.remaining_burst_time = proc.remaining_burst_time)
    (h1start : (proc.start_time = -1 ∧ p₁.start_time = t) ∨
      (proc.start_time ≠ -1 ∧ p₁.start_time = proc.start_time))
    (h2 : p₂ = { p₁ with remaining_burst_time := p₁.remaining_burst_time - Q })
    (hg : Contiguous g' ∧ EntriesProper g' ∧ AdjDistinct g' ∧ firstStart g' = 0 ∧
      lastStop g' = t + Q ∧ nonIdleSum g' = nonIdleSum gantt + Q ∧
      (∀ e : GanttEntry, g'.getLast? = some e → e.occupant = .pid proc.p_id)) :
    RRInv Q pending (rest ++ [p₂]) (t + Q) g'
      (slices ++ [⟨proc.p_id, t, t + Q⟩]) comp := by
  obtain ⟨hgc, hgp, hga, hgf, hgl, hgs, hglast⟩ := hg
  obtain ⟨harr, ha0, hb1, hr1, k, hlens, hrem, hk0, hkS⟩ :=
    inv.queueOK proc (List.mem_cons_self _ _)
  obtain ⟨hcompid, hrestid, hpendid⟩ := rr_pid_facts inv.ids
  have hQ1 := inv.hQ
  have htnn := inv.tnn
  have h2pid : p₂.p_id = proc.p_id := by rw [h2]; exact h1pid
  have h2arr : p₂.arrival_time = proc.arrival_time := by rw [h2]; exact h1arr
  have h2b : p₂.burst_time = proc.burst_time := by rw [h2]; exact h1b
  have h2rem : p₂.remaining_burst_time = proc.remaining_burst_time - Q := by
    rw [h2]
    show p₁.remaining_burst_time - Q = _
    rw [h1rem]
  have h2start : p₂.start_time = p₁.start_time := by rw [h2]
  have hslice : sliceLen ⟨proc.p_id, t, t + Q⟩ = Q := by
    show t + Q - t = Q
    omega
  refine ⟨inv.hQ, by omega, inv.pendSorted, inv.pendFresh, ?_, inv.compOK, ?_, ?_,
    ?_, ?_, hgc, hgp, hga, hgf, hgl, ?_, ?_, ?_⟩
  · intro q hq
    rcases List.mem_append.mp hq with hq | hq
    · obtain ⟨hqarr, hqa0, hqb, hqr, kq, hqlens, hqrem, hqk0, hqkS⟩ := inv.queueOK q
        (List.mem_cons.mpr (Or.inr hq))
      refine ⟨by omega, hqa0, hqb, hqr, kq, ?_, hqrem, hqk0, ?_⟩
      · rw [slicesFor_concat_ne (by exact fun hc => hrestid q hq hc.symm)]
        exact hqlens
      · intro hqs
        obtain ⟨hle1, hle2⟩ := hqkS hqs
        exact ⟨hle1, by omega⟩
    · simp only [List.mem_singleton] at hq
      subst hq
      refine ⟨by omega, by omega, by omega, by omega, k + 1, ?_, ?_, ?_, ?_⟩
      · rw [h2pid, slicesFor_concat_eq (i := proc.p_id) rfl, List.map_append, hlens]
        simp only [List.map_cons, List.map_nil, hslice]
        rw [List.replicate_succ']
      · rw [h2rem, h2b, hrem]
        push_cast
        ring
      · intro hc
        rw [h2start] at hc
        rcases h1start with ⟨_, hs⟩ | ⟨hs, hs'⟩
        · rw [hs] at hc
          omega
        · rw [hs'] at hc
          obtain ⟨-, -⟩ := hkS hs
          exact absurd hc hs
      · intro _
        rw [h2start, h2arr, h2b, h2rem]
        rcases h1start with ⟨hs, hs'⟩ | ⟨hs, hs'⟩
        · have hk := hk0 hs
          subst hk
          rw [hs']
          simp only [Nat.cast_zero, zero_mul, sub_zero] at hrem
          constructor
          · exact harr
          · omega
        · obtain ⟨hle1, hle2⟩ := hkS hs
          rw [hs']
          constructor
          · exact hle1
          · omega
  · intro p hp
    obtain ⟨kp, hkp⟩ := inv.compSlices p hp
    refine ⟨kp, ?_⟩
    rw [slicesFor_concat_ne (by exact fun hc => hcompid p hp hc.symm)]
    exact hkp
  · intro p hp
    exact le_trans (inv.compLe p hp) (by omega)
  · have hperm : List.Perm ((comp ++ (rest ++ [p₂]) ++ pending).map Process.p_id)
        ((comp ++ (proc :: rest) ++ pending).map Process.p_id) := by
      simp only [List.map_append, List.map_cons, h2pid]
      exact (((List.perm_append_singleton _ _).append_left _).append_right _)
    exact hperm.nodup_iff.mpr inv.ids
  · intro s hs
    rcases List.mem_append.mp hs with hs | hs
    · have := inv.slicePid s hs
      rw [List.map_append, List.map_cons] at this
      rw [List.map_append, List.map_append]
      rcases List.mem_append.mp this with h' | h'
      · exact List.mem_append.mpr (Or.inl h')
      · rcases List.mem_cons.mp h' with h' | h'
        · refine List.mem_append.mpr (Or.inr (List.mem_append.mpr (Or.inr ?_)))
          rw [h', ← h2pid]
          simp
        · exact List.mem_append.mpr (Or.inr (List.mem_append.mpr (Or.inl h')))
    · simp only [List.mem_singleton] at hs
      subst hs
      rw [List.map_append, List.map_append]
      refine List.mem_append.mpr (Or.inr (List.mem_append.mpr (Or.inr ?_)))
      show proc.p_id ∈ _
      rw [← h2pid]
      simp
  · intro e he hid
    have := hglast e he
    rw [this] at hid
    exact absurd hid (fun hc => Occupant.noConfusion hc)
  · rw [hgs, inv.sum]
    simp only [List.map_append, List.map_cons, List.sum_append, List.sum_cons,
      List.map_nil, List.sum_nil, h2b, h2rem]
    omega
  · intro hq
    exact absurd hq (by simp)

/-- Dispatching the head of the ready queue for its final slice preserves
the invariant: the process finishes at `t + remaining`, is finalised and
moves to the completed list. -/
lemma RRInv.dispatchComplete {Q : Int} {pending rest : List Process} {t : Int}
    {gantt g' : List GanttEntry} {slices : List Slice} {comp : List Process}
    {proc p₁ procF : Process}
    (inv : RRInv Q pending (proc :: rest) t gantt slices comp)
    (hQr : proc.remaining_burst_time ≤ Q)
    (h1pid : p₁.p_id = proc.p_id)
    (h1arr : p₁.arrival_time = proc.arrival_time)
    (h1b : p₁.burst_time = proc.burst_time)
    (h1rem : p₁.remaining_burst_time = proc.remaining_burst_time)
    (h1start : (proc.start_time = -1 ∧ p₁.start_time = t) ∨
      (proc.start_time ≠ -1 ∧ p₁.start_time = proc.start_time))
    (hFpid : procF.p_id = proc.p_id)
    (hFarr : procF.arrival_time = proc.arrival_time)
    (hFb : procF.burst_time = proc.burst_time)
    (hFrem : procF.remaining_burst_time = 0)
    (hFstart : procF.start_time = p₁.start_time)
    (hFcomp : procF.completion_time = t + proc.remaining_burst_time)
    (hFturn : procF.turnaround_time = procF.completion_time - procF.arrival_time)
    (hFwait : procF.waiting_time = max 0 (procF.turnaround_time - procF.burst_time))
    (hg : Contiguous g' ∧ EntriesProper g' ∧ AdjDistinct g' ∧ firstStart g' = 0 ∧
      lastStop g' = t + proc.remaining_burst_time ∧
      nonIdleSum g' = nonIdleSum gantt + proc.remaining_burst_time ∧
      (∀ e : GanttEntry, g'.getLast? = some e → e.occupant = .pid proc.p_id)) :
    RRInv Q pending rest (t + proc.remaining_burst_time) g'
      (slices ++ [⟨proc.p_id, t, t + proc.remaining_burst_time⟩]) (comp ++ [procF]) := by
  obtain ⟨hgc, hgp, hga, hgf, hgl, hgs, hglast⟩ := hg
  obtain ⟨harr, ha0, hb1, hr1, k, hlens, hrem, hk0, hkS⟩ :=
    inv.queueOK proc (List.mem_cons_self _ _)
  obtain ⟨hcompid, hrestid, hpendid⟩ := rr_pid_facts inv.ids
  have hQ1 := inv.hQ
  have htnn := inv.tnn
  have hstartF : proc.arrival_time ≤ p₁.start_time ∧
      p₁.start_time + proc.burst_time ≤ t + proc.remaining_burst_time := by
    rcases h1start with ⟨hs, hs'⟩ | ⟨hs, hs'⟩
    · have hk := hk0 hs
      subst hk
      simp only [Nat.cast_zero, zero_mul, sub_zero] at hrem
      rw [hs']
      exact ⟨harr, by omega⟩
    · obtain ⟨hle1, hle2⟩ := hkS hs
      rw [hs']
      exact ⟨hle1, by omega⟩
  have hslice : sliceLen ⟨proc.p_id, t, t + proc.remaining_burst_time⟩ =
      proc.remaining_burst_time := by
    show t + proc.remaining_burst_time - t = proc.remaining_burst_time
    omega
  refine ⟨inv.hQ, by omega, inv.pendSorted, inv.pendFresh, ?_, ?_, ?_, ?_,
    ?_, ?_, hgc, hgp, hga, hgf, hgl, ?_, ?_, ?_⟩
  · intro q hq
    obtain ⟨hqarr, hqa0, hqb, hqr, kq, hqlens, hqrem, hqk0, hqkS⟩ := inv.queueOK q
      (List.mem_cons.mpr (Or.inr hq))
    refine ⟨by omega, hqa0, hqb, hqr, kq, ?_, hqrem, hqk0, ?_⟩
    · rw [slicesFor_concat_ne (by exact fun hc => hrestid q hq hc.symm)]
      exact hqlens
    · intro hqs
      obtain ⟨hle1, hle2⟩ := hqkS hqs
      exact ⟨hle1, by omega⟩
  · intro p hp
    rcases List.mem_append.mp hp with hp | hp
    · exact inv.compOK p hp
    · simp only [List.mem_singleton] at hp
      subst hp
      refine ⟨hFturn, hFwait, ?_, ?_, hFrem⟩
      · rw [hFarr, hFstart]
        exact hstartF.1
      · rw [hFstart, hFb, hFcomp]
        exact hstartF.2
  · intro p hp
    rcases List.mem_append.mp hp with hp | hp
    · obtain ⟨kp, hkp⟩ := inv.compSlices p hp
      refine ⟨kp, ?_⟩
      rw [slicesFor_concat_ne (by exact fun hc => hcompid p hp hc.symm)]
      exact hkp
    · simp only [List.mem_singleton] at hp
      subst hp
      refine ⟨k, ?_⟩
      rw [hFpid, slicesFor_concat_eq (i := proc.p_id) rfl, List.map_append, hlens]
      simp only [List.map_cons, List.map_nil, hslice]
      rw [hFb]
      have hfinal : (if proc.burst_time % Q = 0 then Q else proc.burst_time % Q) =
          proc.remaining_burst_time := by
        have hbq : proc.burst_time % Q = proc.remaining_burst_time % Q := by
          have : proc.burst_time = proc.remaining_burst_time + Q * k := by
            rw [hrem]
            push_cast
            ring
          rw [this, Int.add_mul_emod_self_left]
        rcases lt_or_eq_of_le hQr with hlt | heq
        · rw [if_neg]
          · rw [hbq, Int.emod_eq_of_lt (by omega) hlt]
          · rw [hbq, Int.emod_eq_of_lt (by omega) hlt]
            omega
        · rw [if_pos]
          · omega
          · rw [hbq, heq, Int.emod_self]
      rw [hfinal]
  · intro p hp
    rcases List.mem_append.mp hp with hp | hp
    · exact le_trans (inv.compLe p hp) (by omega)
    · simp only [List.mem_singleton] at hp
      subst hp
      rw [hFcomp]
  · have heq : ((comp ++ [procF]) ++ rest ++ pending).map Process.p_id =
        (comp ++ (proc :: rest) ++ pending).map Process.p_id := by
      simp [hFpid]
    rw [heq]
    exact inv.ids
  · intro s hs
    rcases List.mem_append.mp hs with hs | hs
    · have := inv.slicePid s hs
      rw [List.map_append, List.map_cons] at this
      rw [List.map_append, List.map_append]
      rcases List.mem_append.mp this with h' | h'
      · exact List.mem_append.mpr (Or.inl (List.mem_append.mpr (Or.inl h')))
      · rcases List.mem_cons.mp h' with h' | h'
        · refine List.mem_append.mpr (Or.inl (List.mem_append.mpr (Or.inr ?_)))
          rw [h', ← hFpid]
          simp
        · exact List.mem_append.mpr (Or.inr h')
    · simp only [List.mem_singleton] at hs
      subst hs
      rw [List.map_append, List.map_append]
      refine List.mem_append.mpr (Or.inl (List.mem_append.mpr (Or.inr ?_)))
      show proc.p_id ∈ _
      rw [← hFpid]
      simp
  · intro e he hid
    have := hglast e he
    rw [this] at hid
    exact absurd hid (fun hc => Occupant.noConfusion hc)
  · rw [hgs, inv.sum]
    simp only [List.map_append, List.map_cons, List.sum_append, List.sum_cons,
      List.map_nil, List.sum_nil, hFb]
    omega
  · intro _ _ _
    refine ⟨procF, List.mem_append.mpr (Or.inr (by simp)), hFcomp⟩

/-! ## Round Robin: termination measure -/

/-- Remaining work that the loop still has to execute. -/
def liveWork (pending queue : List Process) : Nat :=
  (queue.map fun p => p.remaining_burst_time.toNat).sum +
    (pending.map fun p => p.burst_time.toNat).sum

/-- One extra unit when the next iteration is an idle advance. -/
def rrIndicator (pending queue : List Process) (t : Int) : Nat :=
  match queue, pending with
  | [], p :: _ => if t < p.arrival_time then 1 else 0
  | _, _ => 0

/-- Strictly decreasing measure of the Round Robin loop. -/
def rrMeasure (pending queue : List Process) (t : Int) : Nat :=
  2 * liveWork pending queue + 2 * pending.length + rrIndicator pending queue t

lemma rrIndicator_le_one (pending queue : List Process) (t : Int) :
    rrIndicator pending queue t ≤ 1 := by
  unfold rrIndicator
  split
  · split <;> omega
  · omega

lemma liveWork_enqueue {pending moved pending' queue : List Process} {t : Int}
    (hsplit : pending = moved ++ pending') (hm : ∀ p ∈ moved, p.arrival_time ≤ t) :
    liveWork pending queue = liveWork pending'
      (queue ++ moved.map fun p => { p with remaining_burst_time := p.burst_time }) := by
  clear hm
  unfold liveWork
  rw [hsplit]
  rw [List.map_append, List.sum_append, List.map_append, List.sum_append, List.map_map]
  have hco : ((fun p => p.remaining_burst_time.toNat) ∘ fun p : Process =>
      ({ p with remaining_burst_time := p.burst_time } : Process)) =
      fun p : Process => p.burst_time.toNat := by
    funext p
    rfl
  rw [hco]
  omega

lemma liveWork_cons (pending : List Process) (proc : Process) (queue : List Process) :
    liveWork pending (proc :: queue) =
      proc.remaining_burst_time.toNat + liveWork pending queue := by
  unfold liveWork
  simp
  omega

lemma liveWork_concat (pending queue : List Process) (proc : Process) :
    liveWork pending (queue ++ [proc]) =
      liveWork pending queue + proc.remaining_burst_time.toNat := by
  unfold liveWork
  simp
  omega

/-- Enqueueing preserves the multiset of burst times. -/
lemma enqueue_burst_eq {pending moved pending' : List Process}
    (hsplit : pending = moved ++ pending') (comp queue : List Process) :
    ((comp ++ (queue ++ moved.map fun p =>
        ({ p with remaining_burst_time := p.burst_time } : Process)) ++ pending').map
      Process.burst_time) =
    ((comp ++ queue ++ pending).map Process.burst_time) := by
  rw [hsplit]
  simp only [List.map_append, List.map_map, List.append_assoc]
  have hco : (Process.burst_time ∘ fun p : Process =>
      ({ p with remaining_burst_time := p.burst_time } : Process)) =
      Process.burst_time := by
    funext p
    rfl
  rw [hco]

/-- Statement of the Round Robin master lemma at a given fuel. -/
def RRMaster (Q : Int) (n fuel : Nat) : Prop :=
  ∀ (pending queue : List Process) (t : Int) (gantt : List GanttEntry)
    (slices : List Slice) (tw tt : Int) (comp : List Process),
    comp.length + queue.length + pending.length = n →
    rrMeasure pending queue t < fuel →
    RRInv Q pending queue t gantt slices comp →
    ∃ g sl w u c, rrLoop Q n fuel pending queue t gantt slices tw tt comp =
        some (g, sl, w, u, c) ∧
      RRInv Q [] [] (lastStop g) g sl c ∧
      List.Perm (c.map Process.burst_time)
        ((comp ++ queue ++ pending).map Process.burst_time) ∧
      c.length = n

/-- A completing dispatch step, followed by the arrival enqueue, recursing
into the loop. -/
lemma rr_step_complete {Q : Int} {n fuel : Nat}
    (ih : RRMaster Q n fuel)
    {pending restq : List Process} {t : Int} {gantt g' : List GanttEntry}
    {slices : List Slice} {comp : List Process} {proc p₁ procF : Process}
    (inv1 : RRInv Q pending (proc :: restq) t gantt slices comp)
    (hcount : comp.length + (proc :: restq).length + pending.length = n)
    (hfm : 2 * liveWork pending (proc :: restq) + 2 * pending.length < fuel + 1)
    (hrQ : proc.remaining_burst_time ≤ Q)
    (h1pid : p₁.p_id = proc.p_id)
    (h1arr : p₁.arrival_time = proc.arrival_time)
    (h1b : p₁.burst_time = proc.burst_time)
    (h1rem : p₁.remaining_burst_time = proc.remaining_burst_time)
    (h1start : (proc.start_time = -1 ∧ p₁.start_time = t) ∨
      (proc.start_time ≠ -1 ∧ p₁.start_time = proc.start_time))
    (hFpid : procF.p_id = proc.p_id)
    (hFarr : procF.arrival_time = proc.arrival_time)
    (hFb : procF.burst_time = proc.burst_time)
    (hFrem : procF.remaining_burst_time = 0)
    (hFstart : procF.start_time = p₁.start_time)
    (hFcomp : procF.completion_time = t + proc.remaining_burst_time)
    (hFturn : procF.turnaround_time = procF.completion_time - procF.arrival_time)
    (hFwait : procF.waiting_time = max 0 (procF.turnaround_time - procF.burst_time))
    (hg : Contiguous g' ∧ EntriesProper g' ∧ AdjDistinct g' ∧ firstStart g' = 0 ∧
      lastStop g' = t + proc.remaining_burst_time ∧
      nonIdleSum g' = nonIdleSum gantt + proc.remaining_burst_time ∧
      (∀ e : GanttEntry, g'.getLast? = some e → e.occupant = .pid proc.p_id))
    {moved2 pending2 : List Process}
    (hsplit2 : pending = moved2 ++ pending2)
    (hmoved2 : ∀ p ∈ moved2, p.arrival_time ≤ t + proc.remaining_burst_time) :
    ∀ tw tt : Int,
    ∃ g sl w u c, rrLoop Q n fuel pending2
        (restq ++ moved2.map fun p => { p with remaining_burst_time := p.burst_time })
        (t + proc.remaining_burst_time) g'
        (slices ++ [⟨proc.p_id, t, t + proc.remaining_burst_time⟩]) tw tt
        (comp ++ [procF]) = some (g, sl, w, u, c) ∧
      RRInv Q [] [] (lastStop g) g sl c ∧
      List.Perm (c.map Process.burst_time)
        ((comp ++ (proc :: restq) ++ pending).map Process.burst_time) ∧
      c.length = n := by
  intro tw tt
  have hr1 : 1 ≤ proc.remaining_burst_time :=
    (inv1.queueOK proc (List.mem_cons_self _ _)).2.2.2.1
  have invC := inv1.dispatchComplete hrQ h1pid h1arr h1b h1rem h1start hFpid hFarr
    hFb hFrem hFstart hFcomp hFturn hFwait hg
  have invC2 := invC.enqueue hsplit2 hmoved2
  have hlwe : liveWork pending restq = liveWork pending2
      (restq ++ moved2.map fun p => { p with remaining_burst_time := p.burst_time }) :=
    liveWork_enqueue hsplit2 hmoved2
  have hlwc : liveWork pending (proc :: restq) =
      proc.remaining_burst_time.toNat + liveWork pending restq :=
    liveWork_cons _ _ _
  have hplen : pending.length = moved2.length + pending2.length := by
    rw [hsplit2]
    simp
  have hm2 : rrMeasure pending2
      (restq ++ moved2.map fun p => { p with remaining_burst_time := p.burst_time })
      (t + proc.remaining_burst_time) < fuel := by
    unfold rrMeasure
    have hind := rrIndicator_le_one pending2
      (restq ++ moved2.map fun p => { p with remaining_burst_time := p.burst_time })
      (t + proc.remaining_burst_time)
    omega
  have hc2 : (comp ++ [procF]).length +
      (restq ++ moved2.map fun p =>
        ({ p with remaining_burst_time := p.burst_time } : Process)).length +
      pending2.length = n := by
    simp only [List.length_append, List.length_map, List.length_cons,
      List.length_nil] at hcount ⊢
    omega
  obtain ⟨g, sl, w, u, c, heq, hinv, hperm, hlen⟩ :=
    ih pending2 _ (t + proc.remaining_burst_time) g'
      (slices ++ [⟨proc.p_id, t, t + proc.remaining_burst_time⟩]) tw tt
      (comp ++ [procF]) hc2 hm2 invC2
  refine ⟨g, sl, w, u, c, heq, hinv, ?_, hlen⟩
  refine hperm.trans ?_
  rw [enqueue_burst_eq hsplit2 (comp ++ [procF]) restq]
  have heq2 : ((comp ++ [procF]) ++ restq ++ pending).map Process.burst_time =
      ((comp ++ (proc :: restq) ++ pending).map Process.burst_time) := by
    simp [hFb]
  rw [heq2]

/-- A full-quantum dispatch step with re-queueing, followed by the arrival
enqueue, recursing into the loop. -/
lemma rr_step_requeue {Q : Int} {n fuel : Nat}
    (ih : RRMaster Q n fuel)
    {pending restq : List Process} {t : Int} {gantt g' : List GanttEntry}
    {slices : List Slice} {comp : List Process} {proc p₁ p₂ : Process}
    (inv1 : RRInv Q pending (proc :: restq) t gantt slices comp)
    (hcount : comp.length + (proc :: restq).length + pending.length = n)
    (hfm : 2 * liveWork pending (proc :: restq) + 2 * pending.length < fuel + 1)
    (hQr : Q < proc.remaining_burst_time)
    (h1pid : p₁.p_id = proc.p_id)
    (h1arr : p₁.arrival_time = proc.arrival_time)
    (h1b : p₁.burst_time = proc.burst_time)
    (h1rem : p₁.remaining_burst_time = proc.remaining_burst_time)
    (h1start : (proc.start_time = -1 ∧ p₁.start_time = t) ∨
      (proc.start_time ≠ -1 ∧ p₁.start_time = proc.start_time))
    (h2 : p₂ = { p₁ with remaining_burst_time := p₁.remaining_burst_time - Q })
    (hg : Contiguous g' ∧ EntriesProper g' ∧ AdjDistinct g' ∧ firstStart g' = 0 ∧
      lastStop g' = t + Q ∧ nonIdleSum g' = nonIdleSum gantt + Q ∧
      (∀ e : GanttEntry, g'.getLast? = some e → e.occupant = .pid proc.p_id))
    {moved2 pending2 : List Process}
    (hsplit2 : pending = moved2 ++ pending2)
    (hmoved2 : ∀ p ∈ moved2, p.arrival_time ≤ t + Q) :
    ∀ tw tt : Int,
    ∃ g sl w u c, rrLoop Q n fuel pending2
        ((restq ++ moved2.map fun p =>
          { p with remaining_burst_time := p.burst_time }) ++ [p₂])
        (t + Q) g' (slices ++ [⟨proc.p_id, t, t + Q⟩]) tw tt comp =
        some (g, sl, w, u, c) ∧
      RRInv Q [] [] (lastStop g) g sl c ∧
      List.Perm (c.map Process.burst_time)
        ((comp ++ (proc :: restq) ++ pending).map Process.burst_time) ∧
      c.length = n := by
  intro tw tt
  have hQ1 := inv1.hQ
  have hr1 : 1 ≤ proc.remaining_burst_time :=
    (inv1.queueOK proc (List.mem_cons_self _ _)).2.2.2.1
  have h2rem : p₂.remaining_burst_time = proc.remaining_burst_time - Q := by
    rw [h2]
    show p₁.remaining_burst_time - Q = _
    rw [h1rem]
  have h2b : p₂.burst_time = proc.burst_time := by
    rw [h2]
    exact h1b
  have invR := inv1.dispatchRequeue hQr h1pid h1arr h1b h1rem h1start h2 hg
  have invR2 := invR.enqueue hsplit2 hmoved2
  have hqperm : List.Perm ((restq ++ [p₂]) ++ moved2.map fun p =>
      ({ p with remaining_burst_time := p.burst_time } : Process))
      ((restq ++ moved2.map fun p =>
        ({ p with remaining_burst_time := p.burst_time } : Process)) ++ [p₂]) := by
    rw [List.append_assoc, List.append_assoc]
    exact List.Perm.append_left restq List.perm_append_comm
  have invR3 := invR2.permQueue hqperm
  have hlwe : liveWork pending restq = liveWork pending2
      (restq ++ moved2.map fun p => { p with remaining_burst_time := p.burst_time }) :=
    liveWork_enqueue hsplit2 hmoved2
  have hlwc : liveWork pending (proc :: restq) =
      proc.remaining_burst_time.toNat + liveWork pending restq :=
    liveWork_cons _ _ _
  have hlwq : liveWork pending2
      ((restq ++ moved2.map fun p =>
        ({ p with remaining_burst_time := p.burst_time } : Process)) ++ [p₂]) =
      liveWork pending2 (restq ++ moved2.map fun p =>
        ({ p with remaining_burst_time := p.burst_time } : Process)) +
        p₂.remaining_burst_time.toNat :=
    liveWork_concat _ _ _
  have hplen : pending.length = moved2.length + pending2.length := by
    rw [hsplit2]
    simp
  have hm2 : rrMeasure pending2
      ((restq ++ moved2.map fun p =>
        ({ p with remaining_burst_time := p.burst_time } : Process)) ++ [p₂])
      (t + Q) < fuel := by
    unfold rrMeasure
    have hind := rrIndicator_le_one pending2
      ((restq ++ moved2.map fun p =>
        ({ p with remaining_burst_time := p.burst_time } : Process)) ++ [p₂]) (t + Q)
    have h2r := h2rem
    omega
  have hc2 : comp.length +
      ((restq ++ moved2.map fun p =>
        ({ p with remaining_burst_time := p.burst_time } : Process)) ++ [p₂]).length +
      pending2.length = n := by
    simp only [List.length_append, List.length_map, List.length_cons,
      List.length_nil] at hcount ⊢
    omega
  obtain ⟨g, sl, w, u, c, heq, hinv, hperm, hlen⟩ :=
    ih pending2 _ (t + Q) g' (slices ++ [⟨proc.p_id, t, t + Q⟩]) tw tt comp hc2 hm2 invR3
  refine ⟨g, sl, w, u, c, heq, hinv, ?_, hlen⟩
  refine hperm.trans ?_
  have hstep1 : List.Perm ((comp ++ ((restq ++ moved2.map fun p =>
      ({ p with remaining_burst_time := p.burst_time } : Process)) ++ [p₂]) ++
        pending2).map Process.burst_time)
      ((comp ++ ((restq ++ [p₂]) ++ moved2.map fun p =>
        ({ p with remaining_burst_time := p.burst_time } : Process)) ++
          pending2).map Process.burst_time) :=
    ((hqperm.symm.append_left comp).append_right pending2).map Process.burst_time
  refine hstep1.trans ?_
  rw [enqueue_burst_eq hsplit2 comp (restq ++ [p₂])]
  have hinner : List.Perm ((restq ++ [p₂]).map Process.burst_time)
      ((proc :: restq).map Process.burst_time) := by
    rw [List.map_append]
    simp only [List.map_cons, List.map_nil, h2b]
    exact List.perm_append_singleton _ _
  refine (List.Perm.of_eq (by simp)).trans
    (((hinner.append_left (comp.map Process.burst_time)).append_right
      (pending.map Process.burst_time)).trans (List.Perm.of_eq (by simp)))

/-- Master lemma for the Round Robin loop. -/
lemma rrLoop_ok (Q : Int) (n : Nat) : ∀ fuel : Nat, RRMaster Q n fuel := by
  intro fuel
  induction fuel with
  | zero =>
    intro pending queue t gantt slices tw tt comp _ hf _
    exact absurd hf (Nat.not_lt_zero _)
  | succ fuel ih =>
    intro pending queue t gantt slices tw tt comp hcount hf inv
    by_cases hn : n ≤ comp.length
    · have hq0 : queue = [] :=
        List.eq_nil_of_length_eq_zero (by omega)
      have hp0 : pending = [] :=
        List.eq_nil_of_length_eq_zero (by omega)
      subst hq0
      subst hp0
      refine ⟨gantt, slices, tw, tt, comp, by rw [rrLoop]; rw [if_pos hn], ?_,
        by simp, by simp at hcount; omega⟩
      rw [inv.lastT]
      exact inv
    · obtain ⟨moved, pending1, hsplit, heq1, hmoved, hheadf⟩ :=
        enqueueArrivals_spec t pending queue
      have hlw1 : liveWork pending queue = liveWork pending1
          (queue ++ moved.map fun p => { p with remaining_burst_time := p.burst_time }) :=
        liveWork_enqueue hsplit hmoved
      have hplen1 : pending.length = moved.length + pending1.length := by
        rw [hsplit]
        simp
      rcases hq1 : queue ++ moved.map
          (fun p => ({ p with remaining_burst_time := p.burst_time } : Process)) with
        _ | ⟨proc, restq⟩
      · -- post-enqueue queue empty: the enqueue moved nothing
        have hqe : queue = [] := (List.append_eq_nil.mp hq1).1
        have hme : moved = [] := by
          have h2 := (List.append_eq_nil.mp hq1).2
          cases moved with
          | nil => rfl
          | cons m ms => simp at h2
        subst hqe
        subst hme
        have hpe : pending1 = pending := by rw [hsplit]; rfl
        rcases hpp : pending1 with _ | ⟨p, pr⟩
        · -- no processes anywhere: contradicts the loop-condition check
          exfalso
          rw [hpp] at hpe
          rw [← hpe] at hcount
          simp at hcount
          omega
        · -- idle advance to the next arrival
          have hpend : pending = p :: pr := by rw [← hpe, hpp]
          subst hpend
          have hpe' : pending1 = p :: pr := hpp
          have hplt : t < p.arrival_time := hheadf p (by rw [hpe']; rfl)
          have inv' := inv.idleAdvance hplt
          have hindold : rrIndicator (p :: pr) [] t = 1 := by
            simp [rrIndicator, if_pos hplt]
          have hindnew : rrIndicator (p :: pr) [] p.arrival_time = 0 := by
            simp [rrIndicator]
          have hm' : rrMeasure (p :: pr) [] p.arrival_time < fuel := by
            unfold rrMeasure at hf ⊢
            rw [hindold] at hf
            rw [hindnew]
            omega
          obtain ⟨g, sl, w, u, c, heqr, hinvf, hperm, hlen⟩ :=
            ih (p :: pr) [] p.arrival_time
              (gantt ++ [⟨.idle, t, p.arrival_time⟩]) slices tw tt comp
              (by simpa using hcount) hm' inv'
          refine ⟨g, sl, w, u, c, ?_, hinvf, hperm, hlen⟩
          rw [rrLoop]
          rw [if_neg hn]
          simp only [heq1, hpe', List.map_nil, List.append_nil]
          rw [if_pos hplt]
          rcases hgl : gantt.getLast? with _ | e
          · simp only [hgl]
            exact heqr
          · have hni : ¬ e.occupant = Occupant.idle := by
              intro hid
              rcases inv.idleLast e hgl hid with h' | ⟨q, qr, hpendq, hqarr⟩
              · exact h' rfl
              · injection hpendq with hh1 _
                subst hh1
                omega
            simp only [hgl]
            rw [if_neg hni]
            exact heqr
      · -- dispatch the head of the ready queue
        have inv0 := inv.enqueue hsplit hmoved
        rw [hq1] at inv0
        obtain ⟨harr, ha0, hb1, hr1, k0, hlens0, hrem0, hk00, hkS0⟩ :=
          inv0.queueOK proc (List.mem_cons_self _ _)
        have htnn := inv.tnn
        have hQ1 := inv.hQ
        obtain ⟨hcompid, hrestid, hpendid⟩ := rr_pid_facts inv0.ids
        have hcount1 : comp.length + (proc :: restq).length + pending1.length = n := by
          have hlq : (queue ++ moved.map
              (fun p => ({ p with remaining_burst_time := p.burst_time} : Process))).length
              = restq.length + 1 := by
            rw [hq1]
            simp
          simp only [List.length_append, List.length_map] at hlq
          simp only [List.length_cons] at hcount ⊢
          omega
        have hfm : 2 * liveWork pending1 (proc :: restq) + 2 * pending1.length <
            fuel + 1 := by
          rw [hq1] at hlw1
          unfold rrMeasure at hf
          omega
        -- the conditional start-time update
        rw [rrLoop]
        rw [if_neg hn]
        simp only [heq1, hq1]
        set p₁ := if proc.start_time = -1 then { proc with start_time := t } else proc
          with hp₁def
        have h1pid : p₁.p_id = proc.p_id := by
          rw [hp₁def]
          split <;> rfl
        have h1arr : p₁.arrival_time = proc.arrival_time := by
          rw [hp₁def]
          split <;> rfl
        have h1b : p₁.burst_time = proc.burst_time := by
          rw [hp₁def]
          split <;> rfl
        have h1rem : p₁.remaining_burst_time = proc.remaining_burst_time := by
          rw [hp₁def]
          split <;> rfl
        have h1start : (proc.start_time = -1 ∧ p₁.start_time = t) ∨
            (proc.start_time ≠ -1 ∧ p₁.start_time = proc.start_time) := by
          rw [hp₁def]
          by_cases h : proc.start_time = -1
          · left
            rw [if_pos h]
            exact ⟨h, rfl⟩
          · right
            rw [if_neg h]
            exact ⟨h, rfl⟩
        have hbridge : ((comp ++ (proc :: restq) ++ pending1).map Process.burst_time) =
            ((comp ++ queue ++ pending).map Process.burst_time) := by
          rw [← hq1]
          exact enqueue_burst_eq hsplit comp queue
        by_cases hrQ : proc.remaining_burst_time ≤ Q
        · -- final slice: the process completes
          have hmin : Q ⊓ p₁.remaining_burst_time = proc.remaining_burst_time := by
            rw [h1rem]
            exact min_eq_right hrQ
          have htt' : t < t + proc.remaining_burst_time := by omega
          simp only [hmin, h1pid]
          rw [if_pos (show p₁.remaining_burst_time - proc.remaining_burst_time = 0 by
            rw [h1rem]; ring)]
          obtain ⟨moved2, pending2, hsplit2, heq2, hmoved2, hheadf2⟩ :=
            enqueueArrivals_spec (t + proc.remaining_burst_time) pending1 restq
          simp only [heq2]
          set pF := calculate_metrics
            { p₁ with
                p_id := proc.p_id
                remaining_burst_time :=
                  p₁.remaining_burst_time - proc.remaining_burst_time
                completion_time := t + proc.remaining_burst_time } with hpFdef
          have hcne :
              ({ p₁ with
                  p_id := proc.p_id
                  remaining_burst_time :=
                    p₁.remaining_burst_time - proc.remaining_burst_time
                  completion_time := t + proc.remaining_burst_time } :
                Process).completion_time ≠ -1 := by
            show t + proc.remaining_burst_time ≠ -1
            omega
          have hpF2 : pF =
              { p₁ with
                  p_id := proc.p_id
                  remaining_burst_time :=
                    p₁.remaining_burst_time - proc.remaining_burst_time
                  completion_time := t + proc.remaining_burst_time
                  turnaround_time := t + proc.remaining_burst_time - p₁.arrival_time
                  waiting_time :=
                    max 0 (t + proc.remaining_burst_time - p₁.arrival_time -
                      p₁.burst_time) } := by
            rw [hpFdef, calculate_metrics_eq hcne]
          have hFpid : pF.p_id = proc.p_id := by rw [hpF2]
          have hFarr : pF.arrival_time = proc.arrival_time := by rw [hpF2]; exact h1arr
          have hFb : pF.burst_time = proc.burst_time := by rw [hpF2]; exact h1b
          have hFrem : pF.remaining_burst_time = 0 := by
            rw [hpF2]
            show p₁.remaining_burst_time - proc.remaining_burst_time = 0
            rw [h1rem]
            ring
          have hFstart : pF.start_time = p₁.start_time := by rw [hpF2]
          have hFcomp : pF.completion_time = t + proc.remaining_burst_time := by rw [hpF2]
          have hFturn : pF.turnaround_time = pF.completion_time - pF.arrival_time := by
            rw [hpF2]
          have hFwait : pF.waiting_time = max 0 (pF.turnaround_time - pF.burst_time) := by
            rw [hpF2]
          have hdict : ∀ q ∈ comp, q.p_id ≠ pF.p_id := by
            intro q hq
            rw [hFpid]
            exact hcompid q hq
          rw [dictInsert_eq_append hdict]
          rcases hgl : gantt.getLast? with _ | e
          · simp only [hgl]
            obtain ⟨hg1, hg2, hg3, hg4, hg5, hg6, hg7⟩ :=
              rr_gantt_append_facts (i := proc.p_id) inv0.contig inv0.proper
                inv0.adj inv0.first0 inv0.lastT htt'
                (fun x hx => by rw [hgl] at hx; cases hx)
            obtain ⟨g, sl, w, u, c, heqr, hinvf, hperm, hlen⟩ :=
              rr_step_complete ih inv0 hcount1 hfm hrQ h1pid h1arr h1b h1rem h1start
                hFpid hFarr hFb hFrem hFstart hFcomp hFturn hFwait
                ⟨hg1, hg2, hg3, hg4, hg5, by rw [hg6]; ring, hg7⟩ hsplit2 hmoved2
                (tw + pF.waiting_time) (tt + pF.turnaround_time)
            exact ⟨g, sl, w, u, c, heqr, hinvf, hperm.trans (List.Perm.of_eq hbridge),
              hlen⟩
          · have hstop : e.stop = t := by
              have hl := inv0.lastT
              rw [lastStop, hgl] at hl
              simpa using hl
            by_cases hoc : e.occupant = Occupant.pid proc.p_id
            · simp only [hgl]
              rw [if_pos ⟨hoc, hstop⟩]
              obtain ⟨g₀, hg₀⟩ := exists_concat_of_getLast hgl
              have hic := inv0.contig
              have hip := inv0.proper
              have hia := inv0.adj
              have hif := inv0.first0
              have hil := inv0.lastT
              rw [hg₀] at hic hip hia hif hil
              have hgf := rr_gantt_merge_facts hic hip hia hif hil htt' hoc
              rw [hg₀, List.dropLast_concat]
              rw [← hg₀] at hgf
              obtain ⟨hg1, hg2, hg3, hg4, hg5, hg6, hg7⟩ := hgf
              obtain ⟨g, sl, w, u, c, heqr, hinvf, hperm, hlen⟩ :=
                rr_step_complete ih inv0 hcount1 hfm hrQ h1pid h1arr h1b h1rem h1start
                  hFpid hFarr hFb hFrem hFstart hFcomp hFturn hFwait
                  ⟨hg1, hg2, hg3, hg4, hg5, by rw [hg6]; ring, hg7⟩ hsplit2 hmoved2
                  (tw + pF.waiting_time) (tt + pF.turnaround_time)
              exact ⟨g, sl, w, u, c, heqr, hinvf, hperm.trans (List.Perm.of_eq hbridge),
                hlen⟩
            · simp only [hgl]
              rw [if_neg (fun hc => hoc hc.1)]
              obtain ⟨hg1, hg2, hg3, hg4, hg5, hg6, hg7⟩ :=
                rr_gantt_append_facts (i := proc.p_id) inv0.contig inv0.proper
                  inv0.adj inv0.first0 inv0.lastT htt'
                  (fun x hx => by rw [hgl] at hx; injection hx with hx; subst hx; exact hoc)
              obtain ⟨g, sl, w, u, c, heqr, hinvf, hperm, hlen⟩ :=
                rr_step_complete ih inv0 hcount1 hfm hrQ h1pid h1arr h1b h1rem h1start
                  hFpid hFarr hFb hFrem hFstart hFcomp hFturn hFwait
                  ⟨hg1, hg2, hg3, hg4, hg5, by rw [hg6]; ring, hg7⟩ hsplit2 hmoved2
                  (tw + pF.waiting_time) (tt + pF.turnaround_time)
              exact ⟨g, sl, w, u, c, heqr, hinvf, hperm.trans (List.Perm.of_eq hbridge),
                hlen⟩
        · -- the quantum expires: the process is preempted and requeued
          have hQr : Q < proc.remaining_burst_time := not_le.mp hrQ
          have hQ1 : 1 ≤ Q := inv0.hQ
          have hmin : Q ⊓ p₁.remaining_burst_time = Q := by
            rw [h1rem]
            exact min_eq_left (le_of_lt hQr)
          have htt' : t < t + Q := by omega
          simp only [hmin, h1pid]
          rw [if_neg (show ¬(p₁.remaining_burst_time - Q = 0) by rw [h1rem]; omega)]
          obtain ⟨moved2, pending2, hsplit2, heq2, hmoved2, hheadf2⟩ :=
            enqueueArrivals_spec (t + Q) pending1 restq
          simp only [heq2]
          have h2 :
              ({ p₁ with
                  p_id := proc.p_id
                  remaining_burst_time := p₁.remaining_burst_time - Q } : Process) =
                { p₁ with remaining_burst_time := p₁.remaining_burst_time - Q } := by
            rw [← h1pid]
          rcases hgl : gantt.getLast? with _ | e
          · simp only [hgl]
            obtain ⟨hg1, hg2, hg3, hg4, hg5, hg6, hg7⟩ :=
              rr_gantt_append_facts (i := proc.p_id) inv0.contig inv0.proper
                inv0.adj inv0.first0 inv0.lastT htt'
                (fun x hx => by rw [hgl] at hx; cases hx)
            obtain ⟨g, sl, w, u, c, heqr, hinvf, hperm, hlen⟩ :=
              rr_step_requeue ih inv0 hcount1 hfm hQr h1pid h1arr h1b h1rem h1start h2
                ⟨hg1, hg2, hg3, hg4, hg5, by rw [hg6]; ring, hg7⟩ hsplit2 hmoved2 tw tt
            exact ⟨g, sl, w, u, c, heqr, hinvf, hperm.trans (List.Perm.of_eq hbridge),
              hlen⟩
          · have hstop : e.stop = t := by
              have hl := inv0.lastT
              rw [lastStop, hgl] at hl
              simpa using hl
            by_cases hoc : e.occupant = Occupant.pid proc.p_id
            · simp only [hgl]
              rw [if_pos ⟨hoc, hstop⟩]
              obtain ⟨g₀, hg₀⟩ := exists_concat_of_getLast hgl
              have hic := inv0.contig
              have hip := inv0.proper
              have hia := inv0.adj
              have hif := inv0.first0
              have hil := inv0.lastT
              rw [hg₀] at hic hip hia hif hil
              have hgf := rr_gantt_merge_facts hic hip hia hif hil htt' hoc
              rw [hg₀, List.dropLast_concat]
              rw [← hg₀] at hgf
              obtain ⟨hg1, hg2, hg3, hg4, hg5, hg6, hg7⟩ := hgf
              obtain ⟨g, sl, w, u, c, heqr, hinvf, hperm, hlen⟩ :=
                rr_step_requeue ih inv0 hcount1 hfm hQr h1pid h1arr h1b h1rem h1start h2
                  ⟨hg1, hg2, hg3, hg4, hg5, by rw [hg6]; ring, hg7⟩ hsplit2 hmoved2 tw tt
              exact ⟨g, sl, w, u, c, heqr, hinvf, hperm.trans (List.Perm.of_eq hbridge),
                hlen⟩
            · simp only [hgl]
              rw [if_neg (fun hc => hoc hc.1)]
              obtain ⟨hg1, hg2, hg3, hg4, hg5, hg6, hg7⟩ :=
                rr_gantt_append_facts (i := proc.p_id) inv0.contig inv0.proper
                  inv0.adj inv0.first0 inv0.lastT htt'
                  (fun x hx => by rw [hgl] at hx; injection hx with hx; subst hx; exact hoc)
              obtain ⟨g, sl, w, u, c, heqr, hinvf, hperm, hlen⟩ :=
                rr_step_requeue ih inv0 hcount1 hfm hQr h1pid h1arr h1b h1rem h1start h2
                  ⟨hg1, hg2, hg3, hg4, hg5, by rw [hg6]; ring, hg7⟩ hsplit2 hmoved2 tw tt
              exact ⟨g, sl, w, u, c, heqr, hinvf, hperm.trans (List.Perm.of_eq hbridge),
                hlen⟩

/-! ## From valid inputs to the Round Robin loop invariant -/

/-- The initial Round Robin state satisfies the loop invariant. -/
lemma rrInv_initial {Q : Int} {ps : List Process} (hQ : 1 ≤ Q)
    (h : ValidInput ps) :
    RRInv Q (sortBy byArrival ps) [] 0 [] [] [] := by
  obtain ⟨hne, hids, hall⟩ := h
  refine ⟨hQ, le_refl 0, ?_, ?_, ?_, ?_, ?_, ?_, ?_, ?_, List.chain'_nil, ?_,
    List.chain'_nil, rfl, rfl, ?_, rfl, ?_⟩
  · have hp := sortBy_pairwise (key_total Process.arrival_time byArrival fun a b => rfl)
      (key_trans Process.arrival_time byArrival fun a b => rfl) ps
    refine hp.imp ?_
    intro a b hab
    exact of_decide_eq_true hab
  · intro p hp
    obtain ⟨ha, hb, _, hs⟩ := hall p (mem_sortBy.mp hp)
    exact ⟨hs, ha, hb⟩
  · intro p hp
    cases hp
  · intro p hp
    cases hp
  · intro p hp
    cases hp
  · intro p hp
    cases hp
  · simpa using ((sortBy_perm byArrival ps).map Process.p_id).symm.nodup hids
  · intro s hs
    cases hs
  · intro e he
    cases he
  · intro e he
    cases he
  · intro _ _ hc
    exact absurd rfl hc

lemma sum_map_toNat_succ (l : List Process) :
    (l.map fun p => p.burst_time.toNat + 1).sum =
      (l.map fun p => p.burst_time.toNat).sum + l.length := by
  induction l with
  | nil => simp
  | cons p rest ih =>
    simp only [List.map_cons, List.sum_cons, List.length_cons, ih]
    omega

/-- The chosen fuel strictly dominates the initial loop measure. -/
lemma rrFuel_gt_initial_measure (plist : List Process) :
    rrMeasure plist [] 0 < rrFuel plist := by
  have hind := rrIndicator_le_one plist [] 0
  have hs := sum_map_toNat_succ plist
  unfold rrMeasure rrFuel liveWork
  simp only [List.map_nil, List.sum_nil]
  omega

/-- Everything `round_robin` guarantees on a valid input: the loop result,
the shape of the returned value, the timeline facts, the per-process
metrics, and the slice-length structure of the raw dispatch log. -/
structure RRResultOK (Q : Int) (ps : List Process) (g : List GanttEntry)
    (sl : List Slice) (c : List Process) : Prop where
  contig : Contiguous g
  proper : EntriesProper g
  adj : AdjDistinct g
  first0 : firstStart g = 0
  compLe : ∀ p ∈ c, p.completion_time ≤ lastStop g
  lastC : ∃ p ∈ c, p.completion_time = lastStop g
  burstSum : nonIdleSum g = (ps.map Process.burst_time).sum
  compPhi : ∀ p ∈ c, PhiRR p
  compSlices : ∀ p ∈ c, ∃ k : Nat, (slicesFor p.p_id sl).map sliceLen =
    List.replicate k Q ++ [if p.burst_time % Q = 0 then Q else p.burst_time % Q]
  compNe : c ≠ []
  compLen : c.length = ps.length

lemma round_robin_result {ps : List Process} {Q : Int} (h : ValidInput ps)
    (hQ : 1 ≤ Q) :
    ∃ g sl w u c,
      round_robin ps Q = .ok (g, (w : Rat) / (ps.length : Rat),
        (u : Rat) / (ps.length : Rat), sortBy byPid c) ∧
      round_robin_slices ps Q = some sl ∧
      RRResultOK Q ps g sl c := by
  obtain ⟨g, sl, w, u, c, heq, hinv, hperm, hlen⟩ :=
    rrLoop_ok Q (sortBy byArrival ps).length (rrFuel (sortBy byArrival ps))
      (sortBy byArrival ps) [] 0 [] [] 0 0 [] (by simp)
      (rrFuel_gt_initial_measure _) (rrInv_initial hQ h)
  have hlen' : c.length = ps.length := by
    rw [hlen, sortBy_length]
  have hcne : c ≠ [] := by
    intro hc
    subst hc
    simp at hlen'
    exact h.1 (List.eq_nil_of_length_eq_zero hlen'.symm)
  have hsum : (c.map Process.burst_time).sum = (ps.map Process.burst_time).sum := by
    have h2 : List.Perm (c.map Process.burst_time) (ps.map Process.burst_time) := by
      refine hperm.trans ?_
      simp only [List.append_nil, List.nil_append]
      exact (sortBy_perm byArrival ps).map Process.burst_time
    exact h2.sum_eq
  refine ⟨g, sl, w, u, c, ?_, ?_, ?_⟩
  · simp only [round_robin]
    rw [if_neg (by omega)]
    rw [heq]
    have : c.isEmpty = false := by
      cases c with
      | nil => exact absurd rfl hcne
      | cons a l => rfl
    simp only [this, Bool.false_eq_true, if_neg, ite_false, sortBy_length]
  · simp only [round_robin_slices]
    rw [if_neg (by omega)]
    rw [heq]
  · refine ⟨hinv.contig, hinv.proper, hinv.adj, hinv.first0, hinv.compLe, ?_,
      ?_, hinv.compOK, hinv.compSlices, hcne, hlen'⟩
    · exact hinv.lastC rfl rfl hcne
    · rw [hinv.sum]
      simpa using hsum

/-! ## Round Robin degenerates to FCFS when every burst fits in one quantum -/

/-- Forgetting the only field on which the FCFS and Round-Robin copies of a
completed process legitimately differ (`fcfs` never touches
`remaining_burst_time`; `round_robin` drives it to 0). -/
def zeroRem (p : Process) : Process := { p with remaining_burst_time := 0 }

/-- The externally meaningful per-process data: identity, inputs and the
computed metrics — everything except the scratch `remaining_burst_time`. -/
def metricsView (p : Process) :
    Int × Int × Int × Int × Int × Int × Int × Int :=
  (p.p_id, p.arrival_time, p.burst_time, p.priority, p.start_time,
    p.completion_time, p.waiting_time, p.turnaround_time)

lemma metricsView_zeroRem (p : Process) :
    metricsView (zeroRem p) = metricsView p := rfl

lemma calculate_metrics_zeroRem (p : Process) :
    calculate_metrics (zeroRem p) = zeroRem (calculate_metrics p) := by
  unfold calculate_metrics zeroRem
  by_cases h : p.completion_time ≠ -1
  · rw [if_pos h, if_pos h]
  · rw [if_neg h, if_neg h]

lemma reinit_eq_self {p : Process} (h : p.remaining_burst_time = p.burst_time) :
    ({ p with remaining_burst_time := p.burst_time } : Process) = p := by
  cases p
  simp only [Process.mk.injEq, true_and, and_true]
  simp only at h
  exact h.symm

lemma map_reinit_eq {l : List Process}
    (h : ∀ p ∈ l, p.remaining_burst_time = p.burst_time) :
    (l.map fun p => { p with remaining_burst_time := p.burst_time }) = l := by
  induction l with
  | nil => rfl
  | cons a rest ih =>
    simp only [List.map_cons]
    rw [reinit_eq_self (h a (List.mem_cons_self _ _)),
      ih fun p hp => h p (List.mem_cons_of_mem _ hp)]

lemma insertBy_map_zeroRem (p : Process) (l : List Process) :
    insertBy byPid (zeroRem p) (l.map zeroRem) =
      (insertBy byPid p l).map zeroRem := by
  induction l with
  | nil => rfl
  | cons a rest ih =>
    simp only [List.map_cons, insertBy]
    have hc : byPid (zeroRem p) (zeroRem a) = byPid p a := rfl
    rw [hc]
    by_cases h : byPid p a = true
    · rw [if_pos h, if_pos h]
      simp
    · rw [if_neg h, if_neg h]
      simp only [List.map_cons, ih]

lemma sortBy_map_zeroRem (l : List Process) :
    sortBy byPid (l.map zeroRem) = (sortBy byPid l).map zeroRem := by
  induction l with
  | nil => rfl
  | cons a rest ih =>
    simp only [List.map_cons, sortBy, ih]
    exact insertBy_map_zeroRem a (sortBy byPid rest)

/-- Resolving the leading idle gap of an FCFS iteration. -/
lemma fcfsLoop_idle_step {p : Process} (rest : List Process) {t : Int}
    (h : t < p.arrival_time) (gantt : List GanttEntry) (tw tt : Int)
    (comp : List Process) :
    fcfsLoop (p :: rest) t gantt tw tt comp =
      fcfsLoop (p :: rest) p.arrival_time
        (gantt ++ [⟨.idle, t, p.arrival_time⟩]) tw tt comp := by
  simp only [fcfsLoop, if_pos h, if_neg (lt_irrefl p.arrival_time)]

lemma calculate_metrics_pid (p : Process) :
    (calculate_metrics p).p_id = p.p_id := by
  unfold calculate_metrics
  split <;> rfl

lemma zeroRem_waiting (p : Process) : (zeroRem p).waiting_time = p.waiting_time := rfl

lemma zeroRem_turnaround (p : Process) :
    (zeroRem p).turnaround_time = p.turnaround_time := rfl

lemma zeroRem_pid (p : Process) : (zeroRem p).p_id = p.p_id := rfl

/-- Invariant of the lockstep simulation between `round_robin` (with every
burst at most one quantum) and `fcfs`: the FCFS queue is the Round-Robin
ready queue followed by the not-yet-arrived list, every live process is
fresh and fits in one slice, and the last timeline entry never triggers the
Round-Robin merge rules. -/
structure LSInv (Q : Int) (pending queue : List Process) (t : Int)
    (gantt : List GanttEntry) (comp : List Process) : Prop where
  tnn : 0 ≤ t
  okAll : ∀ p ∈ queue ++ pending, p.start_time = -1 ∧ 0 ≤ p.arrival_time ∧
    1 ≤ p.burst_time ∧ p.burst_time ≤ Q ∧ p.remaining_burst_time = p.burst_time
  arrQ : ∀ p ∈ queue, p.arrival_time ≤ t
  pendSorted : pending.Pairwise fun a b => a.arrival_time ≤ b.arrival_time
  ids : ((comp ++ queue ++ pending).map Process.p_id).Nodup
  glast : ∀ e, gantt.getLast? = some e →
    (∃ i, e.occupant = Occupant.pid i ∧ i ∈ comp.map Process.p_id) ∨
    (e.occupant = Occupant.idle ∧ queue = [] ∧
      ∃ p pr, pending = p :: pr ∧ p.arrival_time ≤ t)

/-- Lockstep simulation: when every live burst fits in one quantum, the
Round-Robin loop computes the same timeline, totals and (up to the spent
`remaining_burst_time` scratch field) the same completed list as the FCFS
loop on the concatenated queue. -/
lemma rr_fcfs_lockstep (Q : Int) (n : Nat) : ∀ fuel : Nat,
    ∀ (pending queue : List Process) (t : Int) (gantt : List GanttEntry)
      (sl : List Slice) (tw tt : Int) (comp : List Process),
      comp.length + queue.length + pending.length = n →
      rrMeasure pending queue t < fuel →
      LSInv Q pending queue t gantt comp →
      ∃ sl', rrLoop Q n fuel pending queue t gantt sl tw tt (comp.map zeroRem) =
        some ((fcfsLoop (queue ++ pending) t gantt tw tt comp).1, sl',
          (fcfsLoop (queue ++ pending) t gantt tw tt comp).2.1,
          (fcfsLoop (queue ++ pending) t gantt tw tt comp).2.2.1,
          ((fcfsLoop (queue ++ pending) t gantt tw tt comp).2.2.2).map zeroRem) := by
  intro fuel
  induction fuel with
  | zero =>
    intro pending queue t gantt sl tw tt comp _ hf _
    exact absurd hf (Nat.not_lt_zero _)
  | succ fuel ih =>
    intro pending queue t gantt sl tw tt comp hcount hf inv
    by_cases hn : n ≤ (List.map zeroRem comp).length
    · have hn' : n ≤ comp.length := by simpa using hn
      have hq0 : queue = [] := List.eq_nil_of_length_eq_zero (by omega)
      have hp0 : pending = [] := List.eq_nil_of_length_eq_zero (by omega)
      subst hq0
      subst hp0
      refine ⟨sl, ?_⟩
      rw [rrLoop]
      rw [if_pos hn]
      rfl
    · have hn' : ¬ n ≤ comp.length := by simpa using hn
      obtain ⟨moved, pending1, hsplit, heq1, hmoved, hheadf⟩ :=
        enqueueArrivals_spec t pending queue
      have hmv : ∀ p ∈ moved, p.remaining_burst_time = p.burst_time := by
        intro p hp
        refine (inv.okAll p (List.mem_append.mpr (Or.inr ?_))).2.2.2.2
        rw [hsplit]
        exact List.mem_append.mpr (Or.inl hp)
      rw [map_reinit_eq hmv] at heq1
      rcases hq1 : queue ++ moved with _ | ⟨proc, restq⟩
      · have hqe : queue = [] := (List.append_eq_nil.mp hq1).1
        have hme : moved = [] := (List.append_eq_nil.mp hq1).2
        subst hqe
        subst hme
        have hpe : pending1 = pending := by rw [hsplit]; rfl
        rcases hpp : pending1 with _ | ⟨p, pr⟩
        · exfalso
          rw [hpp] at hpe
          rw [← hpe] at hcount
          simp at hcount
          omega
        · have hpend : pending = p :: pr := by rw [← hpe, hpp]
          subst hpend
          have hplt : t < p.arrival_time := hheadf p (by rw [hpp]; rfl)
          have hindold : rrIndicator (p :: pr) [] t = 1 := by
            simp [rrIndicator, if_pos hplt]
          have hindnew : rrIndicator (p :: pr) [] p.arrival_time = 0 := by
            simp [rrIndicator]
          have hm' : rrMeasure (p :: pr) [] p.arrival_time < fuel := by
            unfold rrMeasure at hf ⊢
            rw [hindold] at hf
            rw [hindnew]
            omega
          have inv' : LSInv Q (p :: pr) [] p.arrival_time
              (gantt ++ [⟨.idle, t, p.arrival_time⟩]) comp := by
        
            refine ⟨?_, inv.okAll, ?_, inv.pendSorted, inv.ids, ?_⟩
            · have := (inv.okAll p (by simp)).2.1
              omega
            · intro q hq
              cases hq
            · intro e he
              rw [getLast?_concat'] at he
              injection he with he
              subst he
              exact Or.inr ⟨rfl, rfl, p, pr, rfl, le_refl _⟩
          obtain ⟨sl', heqr⟩ := ih (p :: pr) [] p.arrival_time
            (gantt ++ [⟨.idle, t, p.arrival_time⟩]) sl tw tt comp
            (by simpa using hcount) hm' inv'
          refine ⟨sl', ?_⟩
          rw [rrLoop]
          rw [if_neg hn]
          simp only [heq1, hpp, List.append_nil]
          rw [if_pos hplt]
          have hfeq := fcfsLoop_idle_step pr hplt gantt tw tt comp
          rcases hgl : gantt.getLast? with _ | e
          · simp only [hgl]
            rw [heqr]
            simp only [List.nil_append, hfeq]
          · have hni : ¬ e.occupant = Occupant.idle := by
              intro hid
              rcases inv.glast e hgl with ⟨i, hpid, _⟩ | ⟨_, _, q, qr, hpendq, hqarr⟩
              · rw [hid] at hpid
                exact Occupant.noConfusion hpid
              · injection hpendq with hh1 _
                subst hh1
                omega
            simp only [hgl]
            rw [if_neg hni]
            rw [heqr]
            simp only [List.nil_append, hfeq]
      · -- dispatch: both sides run the head to completion in one slice
        have hmemq : proc ∈ queue ++ moved := by
          rw [hq1]
          exact List.mem_cons_self _ _
        have hqp : ∀ x ∈ queue ++ moved, x ∈ queue ++ pending := by
          intro x hx
          rcases List.mem_append.mp hx with h | h
          · exact List.mem_append.mpr (Or.inl h)
          · refine List.mem_append.mpr (Or.inr ?_)
            rw [hsplit]
            exact List.mem_append.mpr (Or.inl h)
        obtain ⟨hst, ha0, hb1, hbQ, hrb⟩ := inv.okAll proc (hqp proc hmemq)
        have harr : proc.arrival_time ≤ t := by
          rcases List.mem_append.mp hmemq with h | h
          · exact inv.arrQ proc h
          · exact hmoved proc h
        have hqf : queue ++ pending = proc :: (restq ++ pending1) := by
          rw [hsplit, ← List.append_assoc, hq1]
          rfl
        have hlq : queue.length + moved.length = restq.length + 1 := by
          have h2 := congrArg List.length hq1
          simpa using h2
        have hlp : pending.length = moved.length + pending1.length := by
          rw [hsplit]
          simp
        rw [rrLoop]
        rw [if_neg hn]
        simp only [heq1, hq1]
        rw [if_pos hst]
        rw [hqf]
        simp only [fcfsLoop]
        rw [if_neg (not_lt.mpr harr), if_neg (not_lt.mpr harr)]
        have hmin : Q ⊓ proc.remaining_burst_time = proc.burst_time := by
          rw [hrb]
          exact min_eq_right hbQ
        simp only [hmin]
        have h0 : proc.remaining_burst_time - proc.burst_time = 0 := by
          rw [hrb]
          ring
        rw [if_pos h0]
        rw [h0]
        have hrecz :
            ({ p_id := proc.p_id
               arrival_time := proc.arrival_time
               burst_time := proc.burst_time
               priority := proc.priority
               remaining_burst_time := 0
               start_time := t
               completion_time := t + proc.burst_time
               waiting_time := proc.waiting_time
               turnaround_time := proc.turnaround_time } : Process) =
            zeroRem
              { p_id := proc.p_id
                arrival_time := proc.arrival_time
                burst_time := proc.burst_time
                priority := proc.priority
                remaining_burst_time := proc.remaining_burst_time
                start_time := t
                completion_time := t + proc.burst_time
                waiting_time := proc.waiting_time
                turnaround_time := proc.turnaround_time } := rfl
        rw [hrecz, calculate_metrics_zeroRem]
        simp only [zeroRem_waiting, zeroRem_turnaround]
        have hids2 := inv.ids
        rw [List.append_assoc, hqf] at hids2
        have hcompid : ∀ q ∈ comp, q.p_id ≠ proc.p_id := by
          simp only [List.map_append, List.map_cons] at hids2
          have hdisj := (List.nodup_append.mp hids2).2.2
          intro q hq hc
          exact hdisj (List.mem_map_of_mem Process.p_id hq)
            (by rw [hc]; exact List.mem_cons_self _ _)
        have hdict : ∀ q ∈ List.map zeroRem comp,
            q.p_id ≠ (zeroRem (calculate_metrics
              { p_id := proc.p_id
                arrival_time := proc.arrival_time
                burst_time := proc.burst_time
                priority := proc.priority
                remaining_burst_time := proc.remaining_burst_time
                start_time := t
                completion_time := t + proc.burst_time
                waiting_time := proc.waiting_time
                turnaround_time := proc.turnaround_time })).p_id := by
          intro q hq
          obtain ⟨q', hq', rfl⟩ := List.mem_map.mp hq
          rw [zeroRem_pid, zeroRem_pid, calculate_metrics_pid]
          exact hcompid q' hq'
        rw [dictInsert_eq_append hdict]
        set pF := calculate_metrics
          { p_id := proc.p_id
            arrival_time := proc.arrival_time
            burst_time := proc.burst_time
            priority := proc.priority
            remaining_burst_time := proc.remaining_burst_time
            start_time := t
            completion_time := t + proc.burst_time
            waiting_time := proc.waiting_time
            turnaround_time := proc.turnaround_time } with hpFdef
        have hpFpid : pF.p_id = proc.p_id := by
          rw [hpFdef, calculate_metrics_pid]
        obtain ⟨moved2, pending2, hsplit2, heq2, hmoved2, hheadf2⟩ :=
          enqueueArrivals_spec (t + proc.burst_time) pending1 restq
        have hmv2 : ∀ p ∈ moved2, p.remaining_burst_time = p.burst_time := by
          intro p hp
          refine (inv.okAll p (List.mem_append.mpr (Or.inr ?_))).2.2.2.2
          rw [hsplit, hsplit2]
          exact List.mem_append.mpr (Or.inr (List.mem_append.mpr (Or.inl hp)))
        rw [map_reinit_eq hmv2] at heq2
        simp only [heq2]
        have hlp2 : pending1.length = moved2.length + pending2.length := by
          rw [hsplit2]
          simp
        have hcount2 : (comp ++ [pF]).length + (restq ++ moved2).length +
            pending2.length = n := by
          simp only [List.length_append, List.length_cons, List.length_nil]
            at hcount ⊢
          omega
        have hlw1 : liveWork pending queue = liveWork pending1
            (queue ++ moved.map fun p =>
              { p with remaining_burst_time := p.burst_time }) :=
          liveWork_enqueue hsplit hmoved
        rw [map_reinit_eq hmv, hq1] at hlw1
        have hlw2 : liveWork pending1 restq = liveWork pending2
            (restq ++ moved2.map fun p =>
              { p with remaining_burst_time := p.burst_time }) :=
          liveWork_enqueue hsplit2 hmoved2
        rw [map_reinit_eq hmv2] at hlw2
        have hlwc := liveWork_cons pending1 proc restq
        have hrt1 : 1 ≤ proc.remaining_burst_time.toNat := by omega
        have hind2 := rrIndicator_le_one pending2 (restq ++ moved2)
          (t + proc.burst_time)
        have hm2 : rrMeasure pending2 (restq ++ moved2) (t + proc.burst_time) <
            fuel := by
          unfold rrMeasure at hf ⊢
          rw [hlw1, hlwc, hlw2] at hf
          omega
        have hsubr : ∀ p ∈ restq, p ∈ queue ++ moved := by
          intro p hp
          rw [hq1]
          exact List.mem_cons_of_mem _ hp
        have htnn := inv.tnn
        have inv2 : LSInv Q pending2 (restq ++ moved2) (t + proc.burst_time)
            (gantt ++ [⟨.pid proc.p_id, t, t + proc.burst_time⟩]) (comp ++ [pF]) := by
          refine ⟨by omega, ?_, ?_, ?_, ?_, ?_⟩
          · intro p hp
            refine inv.okAll p ?_
            rcases List.mem_append.mp hp with h | h
            · rcases List.mem_append.mp h with h' | h'
              · exact hqp p (hsubr p h')
              · refine List.mem_append.mpr (Or.inr ?_)
                rw [hsplit, hsplit2]
                exact List.mem_append.mpr (Or.inr (List.mem_append.mpr (Or.inl h')))
            · refine List.mem_append.mpr (Or.inr ?_)
              rw [hsplit, hsplit2]
              exact List.mem_append.mpr (Or.inr (List.mem_append.mpr (Or.inr h)))
          · intro p hp
            rcases List.mem_append.mp hp with h | h
            · have h2 : p.arrival_time ≤ t := by
                rcases List.mem_append.mp (hsubr p h) with h' | h'
                · exact inv.arrQ p h'
                · exact hmoved p h'
              omega
            · exact hmoved2 p h
          · have hps := inv.pendSorted
            rw [hsplit, hsplit2] at hps
            exact (List.pairwise_append.mp ((List.pairwise_append.mp hps).2.1)).2.1
          · have h2 := inv.ids
            rw [List.append_assoc, hqf, hsplit2] at h2
            simp only [List.map_append, List.map_cons, List.map_nil, hpFpid,
              List.append_assoc, List.singleton_append, List.cons_append] at h2 ⊢
            exact h2
          · intro e he
            rw [getLast?_concat'] at he
            injection he with he
            subst he
            refine Or.inl ⟨proc.p_id, rfl, ?_⟩
            rw [List.map_append]
            refine List.mem_append.mpr (Or.inr ?_)
            simp [hpFpid]
        obtain ⟨sl', heqr⟩ := ih pending2 (restq ++ moved2) (t + proc.burst_time)
          (gantt ++ [⟨.pid proc.p_id, t, t + proc.burst_time⟩])
          (sl ++ [⟨proc.p_id, t, t + proc.burst_time⟩])
          (tw + pF.waiting_time) (tt + pF.turnaround_time) (comp ++ [pF])
          hcount2 hm2 inv2
        rcases hgl : gantt.getLast? with _ | e
        · simp only [hgl]
          refine ⟨sl', ?_⟩
          rw [show List.map zeroRem comp ++ [zeroRem pF] =
            List.map zeroRem (comp ++ [pF]) by simp]
          rw [hsplit2, ← List.append_assoc]
          exact heqr
        · have hnc : ¬ (e.occupant = Occupant.pid proc.p_id ∧ e.stop = t) := by
            rintro ⟨h1, _⟩
            rcases inv.glast e hgl with ⟨i, hpid, hi⟩ | ⟨hid, _, _⟩
            · rw [hpid] at h1
              injection h1 with h1
              subst h1
              obtain ⟨q', hq', hq'pid⟩ := List.mem_map.mp hi
              exact hcompid q' hq' hq'pid
            · rw [hid] at h1
              exact Occupant.noConfusion h1
          simp only [hgl]
          rw [if_neg hnc]
          refine ⟨sl', ?_⟩
          rw [show List.map zeroRem comp ++ [zeroRem pF] =
            List.map zeroRem (comp ++ [pF]) by simp]
          rw [hsplit2, ← List.append_assoc]
          exact heqr

/-- `round_robin` with a quantum that covers every burst returns the FCFS
timeline, the FCFS averages, and the FCFS completed list up to the spent
`remaining_burst_time` scratch field. -/
lemma round_robin_eq_fcfs {ps : List Process} {Q : Int} (h : ValidInput ps)
    (hQ : 1 ≤ Q) (hb : ∀ p ∈ ps, p.burst_time ≤ Q)
    (hr : ∀ p ∈ ps, p.remaining_burst_time = p.burst_time) :
    ∃ g w u c, fcfs ps = (g, w, u, c) ∧
      round_robin ps Q = .ok (g, w, u, c.map zeroRem) := by
  obtain ⟨hne, hids, hall⟩ := h
  have invL : LSInv Q (sortBy byArrival ps) [] 0 [] [] := by
    refine ⟨le_refl 0, ?_, ?_, ?_, ?_, ?_⟩
    · intro p hp
      simp only [List.nil_append] at hp
      obtain ⟨ha, hb1, _, hs⟩ := hall p (mem_sortBy.mp hp)
      exact ⟨hs, ha, hb1, hb p (mem_sortBy.mp hp), hr p (mem_sortBy.mp hp)⟩
    · intro p hp
      cases hp
    · have hp := sortBy_pairwise
        (key_total Process.arrival_time byArrival fun a b => rfl)
        (key_trans Process.arrival_time byArrival fun a b => rfl) ps
      refine hp.imp ?_
      intro a b hab
      exact of_decide_eq_true hab
    · simpa using ((sortBy_perm byArrival ps).map Process.p_id).symm.nodup hids
    · intro e he
      cases he
  obtain ⟨sl', heqL⟩ := rr_fcfs_lockstep Q (sortBy byArrival ps).length
    (rrFuel (sortBy byArrival ps)) (sortBy byArrival ps) [] 0 [] [] 0 0 []
    (by simp) (rrFuel_gt_initial_measure _) invL
  simp only [List.map_nil, List.nil_append] at heqL
  obtain ⟨g₀, w₀, u₀, c₀, heq₀, hinv₀, hmap₀, hlen₀⟩ :=
    fcfsLoop_ok (sortBy byArrival ps) 0 [] 0 0 []
      (validInput_initial ⟨hne, hids, hall⟩)
  rw [heq₀] at heqL
  have hlen' : c₀.length = ps.length := by
    rw [hlen₀, sortBy_length]
    simp
  have hcne : c₀ ≠ [] := by
    intro hc
    subst hc
    simp at hlen'
    exact hne (List.eq_nil_of_length_eq_zero hlen'.symm)
  have hemp : c₀.isEmpty = false := by
    cases c₀ with
    | nil => exact absurd rfl hcne
    | cons a l => rfl
  have hempz : (List.map zeroRem c₀).isEmpty = false := by
    cases c₀ with
    | nil => exact absurd rfl hcne
    | cons a l => rfl
  refine ⟨g₀, (w₀ : Rat) / (c₀.length : Rat), (u₀ : Rat) / (c₀.length : Rat),
    sortBy byPid c₀, ?_, ?_⟩
  · simp only [fcfs]
    rw [heq₀]
    simp [hemp]
  · simp only [round_robin]
    rw [if_neg (by omega)]
    rw [heqL]
    simp only [hempz, Bool.false_eq_true, if_neg, ite_false]
    rw [sortBy_map_zeroRem, sortBy_length, ← hlen', Except.ok.injEq]

/-! ## The claims -/

instance {e b : Type} [DecidableEq e] [DecidableEq b] : DecidableEq (Except e b) :=
  fun x y => match x, y with
  | .ok a, .ok a' =>
    if h : a = a' then .isTrue (by rw [h])
    else .isFalse fun hc => h (Except.ok.inj hc)
  | .error a, .error a' =>
    if h : a = a' then .isTrue (by rw [h])
    else .isFalse fun hc => h (Except.error.inj hc)
  | .ok _, .error _ => .isFalse fun hc => Except.noConfusion hc
  | .error _, .ok _ => .isFalse fun hc => Except.noConfusion hc

/-- Spec-side reading of claim C1's per-process metric formulas. -/
def MetricsOK (c : List Process) : Prop :=
  ∀ p ∈ c, p.turnaround_time = p.completion_time - p.arrival_time ∧
    p.waiting_time = max 0 (p.turnaround_time - p.burst_time)

/-- Spec-side reading of claim C2's valid-timeline property. -/
def TimelineOK (ps : List Process) (g : List GanttEntry)
    (c : List Process) : Prop :=
  Contiguous g ∧ EntriesProper g ∧ AdjDistinct g ∧ firstStart g = 0 ∧
  (∀ p ∈ c, p.completion_time ≤ lastStop g) ∧
  (∃ p ∈ c, p.completion_time = lastStop g) ∧
  nonIdleSum g = (ps.map Process.burst_time).sum

/-- Spec-side reading of claim C10's bounds for the non-preemptive
algorithms: each process runs in one uninterrupted segment. -/
def BoundsNP (c : List Process) : Prop :=
  ∀ p ∈ c, p.arrival_time ≤ p.start_time ∧
    p.start_time + p.burst_time = p.completion_time

/-- Spec-side reading of claim C10's bounds for Round Robin. -/
def BoundsRR (c : List Process) : Prop :=
  ∀ p ∈ c, p.arrival_time ≤ p.start_time ∧
    p.start_time + p.burst_time ≤ p.completion_time

/-- C1 (confirmed).  For every algorithm and every valid input (any positive
quantum for Round Robin), every process of the returned completed list
satisfies `turnaround_time = completion_time - arrival_time` and
`waiting_time = max 0 (turnaround_time - burst_time)`: a negative raw
waiting value is clamped to 0, never reported as an error. -/
theorem C1_metrics_clamped {ps : List Process} {Q : Int}
    (h : ValidInput ps) (hQ : 1 ≤ Q) :
    (∀ g w u c, fcfs ps = (g, w, u, c) → MetricsOK c) ∧
    (∀ g w u c, sjf ps = (g, w, u, c) → MetricsOK c) ∧
    (∀ g w u c, priority_scheduling ps = (g, w, u, c) → MetricsOK c) ∧
    (∀ g w u c, round_robin ps Q = .ok (g, w, u, c) → MetricsOK c) := by
  refine ⟨?_, ?_, ?_, ?_⟩
  · obtain ⟨g₀, w₀, u₀, c₀, heq₀, hok⟩ := fcfs_result h
    intro g w u c heq
    rw [heq₀] at heq
    simp only [Prod.mk.injEq] at heq
    obtain ⟨rfl, rfl, rfl, rfl⟩ := heq
    intro p hp
    have hphi := hok.compPhi p hp
    exact ⟨hphi.1, hphi.2.1⟩
  · obtain ⟨g₀, w₀, u₀, c₀, heq₀, hok⟩ := npRun_result byBurst h
    intro g w u c heq
    rw [show sjf ps = npRun byBurst ps from rfl, heq₀] at heq
    simp only [Prod.mk.injEq] at heq
    obtain ⟨rfl, rfl, rfl, rfl⟩ := heq
    intro p hp
    have hphi := hok.compPhi p hp
    exact ⟨hphi.1, hphi.2.1⟩
  · obtain ⟨g₀, w₀, u₀, c₀, heq₀, hok⟩ := npRun_result byPriority h
    intro g w u c heq
    rw [show priority_scheduling ps = npRun byPriority ps from rfl, heq₀] at heq
    simp only [Prod.mk.injEq] at heq
    obtain ⟨rfl, rfl, rfl, rfl⟩ := heq
    intro p hp
    have hphi := hok.compPhi p hp
    exact ⟨hphi.1, hphi.2.1⟩
  · obtain ⟨g₀, sl₀, w₀, u₀, c₀, heq₀, hsl₀, hok⟩ := round_robin_result h hQ
    intro g w u c heq
    rw [heq₀] at heq
    simp only [Except.ok.injEq, Prod.mk.injEq] at heq
    obtain ⟨rfl, rfl, rfl, rfl⟩ := heq
    intro p hp
    have hphi := hok.compPhi p (mem_sortBy.mp hp)
    exact ⟨hphi.1, hphi.2.1⟩

/-- Witness for C1 at a concrete input (two processes, quantum 2). -/
theorem C1_metrics_clamped_witness :
    ValidInput [Process.make 1 0 3 1, Process.make 2 2 4 0] ∧
    ((∀ g w u c, fcfs [Process.make 1 0 3 1, Process.make 2 2 4 0] =
        (g, w, u, c) → MetricsOK c) ∧
      (∀ g w u c, sjf [Process.make 1 0 3 1, Process.make 2 2 4 0] =
        (g, w, u, c) → MetricsOK c) ∧
      (∀ g w u c, priority_scheduling [Process.make 1 0 3 1, Process.make 2 2 4 0] =
        (g, w, u, c) → MetricsOK c) ∧
      (∀ g w u c, round_robin [Process.make 1 0 3 1, Process.make 2 2 4 0] 2 =
        .ok (g, w, u, c) → MetricsOK c)) :=
  ⟨by decide, C1_metrics_clamped (by decide) (by decide)⟩

/-- C2 (confirmed).  For every algorithm and every valid input, the returned
timeline is valid: contiguous, non-overlapping entries with `start < stop`,
beginning at 0 and ending at the last completion time, no two adjacent
entries with the same occupant, and the summed durations of non-Idle
entries equal the sum of all burst times. -/
theorem C2_timeline_valid {ps : List Process} {Q : Int}
    (h : ValidInput ps) (hQ : 1 ≤ Q) :
    (∀ g w u c, fcfs ps = (g, w, u, c) → TimelineOK ps g c) ∧
    (∀ g w u c, sjf ps = (g, w, u, c) → TimelineOK ps g c) ∧
    (∀ g w u c, priority_scheduling ps = (g, w, u, c) → TimelineOK ps g c) ∧
    (∀ g w u c, round_robin ps Q = .ok (g, w, u, c) → TimelineOK ps g c) := by
  refine ⟨?_, ?_, ?_, ?_⟩
  · obtain ⟨g₀, w₀, u₀, c₀, heq₀, hok⟩ := fcfs_result h
    intro g w u c heq
    rw [heq₀] at heq
    simp only [Prod.mk.injEq] at heq
    obtain ⟨rfl, rfl, rfl, rfl⟩ := heq
    exact ⟨hok.contig, hok.proper, hok.adj, hok.first0, hok.compLe, hok.lastC,
      hok.burstSum⟩
  · obtain ⟨g₀, w₀, u₀, c₀, heq₀, hok⟩ := npRun_result byBurst h
    intro g w u c heq
    rw [show sjf ps = npRun byBurst ps from rfl, heq₀] at heq
    simp only [Prod.mk.injEq] at heq
    obtain ⟨rfl, rfl, rfl, rfl⟩ := heq
    exact ⟨hok.contig, hok.proper, hok.adj, hok.first0, hok.compLe, hok.lastC,
      hok.burstSum⟩
  · obtain ⟨g₀, w₀, u₀, c₀, heq₀, hok⟩ := npRun_result byPriority h
    intro g w u c heq
    rw [show priority_scheduling ps = npRun byPriority ps from rfl, heq₀] at heq
    simp only [Prod.mk.injEq] at heq
    obtain ⟨rfl, rfl, rfl, rfl⟩ := heq
    exact ⟨hok.contig, hok.proper, hok.adj, hok.first0, hok.compLe, hok.lastC,
      hok.burstSum⟩
  · obtain ⟨g₀, sl₀, w₀, u₀, c₀, heq₀, hsl₀, hok⟩ := round_robin_result h hQ
    intro g w u c heq
    rw [heq₀] at heq
    simp only [Except.ok.injEq, Prod.mk.injEq] at heq
    obtain ⟨rfl, rfl, rfl, rfl⟩ := heq
    refine ⟨hok.contig, hok.proper, hok.adj, hok.first0, ?_, ?_, hok.burstSum⟩
    · intro p hp
      exact hok.compLe p (mem_sortBy.mp hp)
    · obtain ⟨p, hp, hpc⟩ := hok.lastC
      exact ⟨p, mem_sortBy.mpr hp, hpc⟩

/-- Witness for C2 at a concrete input featuring an idle gap. -/
theorem C2_timeline_valid_witness :
    ValidInput [Process.make 1 1 2 1, Process.make 2 5 3 0] ∧
    ((∀ g w u c, fcfs [Process.make 1 1 2 1, Process.make 2 5 3 0] =
        (g, w, u, c) → TimelineOK [Process.make 1 1 2 1, Process.make 2 5 3 0] g c) ∧
      (∀ g w u c, sjf [Process.make 1 1 2 1, Process.make 2 5 3 0] =
        (g, w, u, c) → TimelineOK [Process.make 1 1 2 1, Process.make 2 5 3 0] g c) ∧
      (∀ g w u c, priority_scheduling [Process.make 1 1 2 1, Process.make 2 5 3 0] =
        (g, w, u, c) → TimelineOK [Process.make 1 1 2 1, Process.make 2 5 3 0] g c) ∧
      (∀ g w u c, round_robin [Process.make 1 1 2 1, Process.make 2 5 3 0] 2 =
        .ok (g, w, u, c) →
          TimelineOK [Process.make 1 1 2 1, Process.make 2 5 3 0] g c)) :=
  ⟨by decide, C2_timeline_valid (by decide) (by decide)⟩

/-- C10 (confirmed).  For every algorithm and valid input, every completed
process satisfies `arrival_time ≤ start_time` and
`start_time + burst_time ≤ completion_time`, with equality for the
non-preemptive algorithms. -/
theorem C10_start_completion_bounds {ps : List Process} {Q : Int}
    (h : ValidInput ps) (hQ : 1 ≤ Q) :
    (∀ g w u c, fcfs ps = (g, w, u, c) → BoundsNP c) ∧
    (∀ g w u c, sjf ps = (g, w, u, c) → BoundsNP c) ∧
    (∀ g w u c, priority_scheduling ps = (g, w, u, c) → BoundsNP c) ∧
    (∀ g w u c, round_robin ps Q = .ok (g, w, u, c) → BoundsRR c) := by
  refine ⟨?_, ?_, ?_, ?_⟩
  · obtain ⟨g₀, w₀, u₀, c₀, heq₀, hok⟩ := fcfs_result h
    intro g w u c heq
    rw [heq₀] at heq
    simp only [Prod.mk.injEq] at heq
    obtain ⟨rfl, rfl, rfl, rfl⟩ := heq
    intro p hp
    have hphi := hok.compPhi p hp
    exact ⟨hphi.2.2.1, hphi.2.2.2⟩
  · obtain ⟨g₀, w₀, u₀, c₀, heq₀, hok⟩ := npRun_result byBurst h
    intro g w u c heq
    rw [show sjf ps = npRun byBurst ps from rfl, heq₀] at heq
    simp only [Prod.mk.injEq] at heq
    obtain ⟨rfl, rfl, rfl, rfl⟩ := heq
    intro p hp
    have hphi := hok.compPhi p hp
    exact ⟨hphi.2.2.1, hphi.2.2.2⟩
  · obtain ⟨g₀, w₀, u₀, c₀, heq₀, hok⟩ := npRun_result byPriority h
    intro g w u c heq
    rw [show priority_scheduling ps = npRun byPriority ps from rfl, heq₀] at heq
    simp only [Prod.mk.injEq] at heq
    obtain ⟨rfl, rfl, rfl, rfl⟩ := heq
    intro p hp
    have hphi := hok.compPhi p hp
    exact ⟨hphi.2.2.1, hphi.2.2.2⟩
  · obtain ⟨g₀, sl₀, w₀, u₀, c₀, heq₀, hsl₀, hok⟩ := round_robin_result h hQ
    intro g w u c heq
    rw [heq₀] at heq
    simp only [Except.ok.injEq, Prod.mk.injEq] at heq
    obtain ⟨rfl, rfl, rfl, rfl⟩ := heq
    intro p hp
    have hphi := hok.compPhi p (mem_sortBy.mp hp)
    exact ⟨hphi.2.2.1, hphi.2.2.2.1⟩

/-- Witness for C10 at a concrete input. -/
theorem C10_start_completion_bounds_witness :
    ValidInput [Process.make 1 0 3 1, Process.make 2 1 4 0] ∧
    ((∀ g w u c, fcfs [Process.make 1 0 3 1, Process.make 2 1 4 0] =
        (g, w, u, c) → BoundsNP c) ∧
      (∀ g w u c, sjf [Process.make 1 0 3 1, Process.make 2 1 4 0] =
        (g, w, u, c) → BoundsNP c) ∧
      (∀ g w u c, priority_scheduling [Process.make 1 0 3 1, Process.make 2 1 4 0] =
        (g, w, u, c) → BoundsNP c) ∧
      (∀ g w u c, round_robin [Process.make 1 0 3 1, Process.make 2 1 4 0] 2 =
        .ok (g, w, u, c) → BoundsRR c)) :=
  ⟨by decide, C10_start_completion_bounds (by decide) (by decide)⟩

/-- C6 (confirmed).  On a valid input, `round_robin` fails if and only if
the quantum is ≤ 0, and the failure is the quantum guard itself, raised
before the simulation builds any timeline entry or touches any process
state: the error carries no partial result. -/
theorem C6_quantum_guard {ps : List Process} {Q : Int} (h : ValidInput ps) :
    ((∃ e, round_robin ps Q = .error e) ↔ Q ≤ 0) ∧
    (Q ≤ 0 → round_robin ps Q = .error "Time quantum must be positive.") := by
  have herr : Q ≤ 0 → round_robin ps Q = .error "Time quantum must be positive." := by
    intro hQ
    simp only [round_robin]
    rw [if_pos hQ]
  refine ⟨⟨?_, fun hQ => ⟨_, herr hQ⟩⟩, herr⟩
  intro ⟨e, he⟩
  by_contra hQ
  obtain ⟨g, sl, w, u, c, heq, _, _⟩ := round_robin_result (Q := Q) h (by omega)
  rw [heq] at he
  exact Except.noConfusion he

/-- Witness for C6: at quantum 0 the guard fires. -/
theorem C6_quantum_guard_witness :
    ValidInput [Process.make 1 0 2 0] ∧
    (((∃ e, round_robin [Process.make 1 0 2 0] 0 = .error e) ↔ (0 : Int) ≤ 0) ∧
      ((0 : Int) ≤ 0 →
        round_robin [Process.make 1 0 2 0] 0 =
          .error "Time quantum must be positive.")) :=
  ⟨by decide, C6_quantum_guard (by decide)⟩

/-- C7 (confirmed).  On a valid input whose processes are `__init__`-fresh
(`remaining_burst_time = burst_time`) and all fit in one quantum,
`round_robin` degenerates to `fcfs`: identical timeline, identical
averages, and the per-process external metrics agree (the completed copies
differ only in the spent `remaining_burst_time` scratch field). -/
theorem C7_rr_degenerates_to_fcfs {ps : List Process} {Q : Int}
    (h : ValidInput ps) (hQ : 1 ≤ Q) (hb : ∀ p ∈ ps, p.burst_time ≤ Q)
    (hr : ∀ p ∈ ps, p.remaining_burst_time = p.burst_time) :
    ∃ g w u c c', fcfs ps = (g, w, u, c) ∧
      round_robin ps Q = .ok (g, w, u, c') ∧
      c'.map metricsView = c.map metricsView := by
  obtain ⟨g, w, u, c, heqf, heqr⟩ := round_robin_eq_fcfs h hQ hb hr
  refine ⟨g, w, u, c, c.map zeroRem, heqf, heqr, ?_⟩
  rw [List.map_map]
  have : metricsView ∘ zeroRem = metricsView := by
    funext p
    exact metricsView_zeroRem p
  rw [this]

/-- Witness for C7: two staggered processes, both bursts within quantum 3. -/
theorem C7_rr_degenerates_to_fcfs_witness :
    ValidInput [Process.make 1 0 2 0, Process.make 2 1 3 1] ∧
    (∃ g w u c c', fcfs [Process.make 1 0 2 0, Process.make 2 1 3 1] =
        (g, w, u, c) ∧
      round_robin [Process.make 1 0 2 0, Process.make 2 1 3 1] 3 =
        .ok (g, w, u, c') ∧
      c'.map metricsView = c.map metricsView) :=
  ⟨by decide,
    C7_rr_degenerates_to_fcfs (by decide) (by decide) (by decide) (by decide)⟩

/-- C8 counterexample.  The engine does not fail on the empty process set:
every algorithm returns the empty result (`fcfs` and friends return
`([], 0, 0, [])`, `round_robin` returns `.ok ([], 0, 0, [])`); the
empty-set `InvalidInput` check lives in the GUI layer (gui.py lines
199-201), not in scheduler.py. -/
theorem C8_counterexample :
    fcfs [] = ([], 0, 0, []) ∧ sjf [] = ([], 0, 0, []) ∧
    priority_scheduling [] = ([], 0, 0, []) ∧
    round_robin [] 2 = .ok ([], 0, 0, []) := by
  refine ⟨rfl, rfl, rfl, ?_⟩
  simp only [round_robin]
  norm_num
  rfl

/-- C8 (corrected).  Amended statement: on the empty process set every
scheduler returns the empty result without error — no timeline, zero
averages, no completed processes — rather than failing; the empty-input
`InvalidInput` rejection happens in the GUI before the engine is called. -/
theorem C8_empty_input_returns_empty {Q : Int} (hQ : 1 ≤ Q) :
    fcfs [] = ([], 0, 0, []) ∧ sjf [] = ([], 0, 0, []) ∧
    priority_scheduling [] = ([], 0, 0, []) ∧
    round_robin [] Q = .ok ([], 0, 0, []) := by
  refine ⟨rfl, rfl, rfl, ?_⟩
  simp only [round_robin]
  rw [if_neg (by omega)]
  rfl

/-- Witness for the amended C8 at quantum 5. -/
theorem C8_empty_input_witness :
    (1 : Int) ≤ 5 ∧
    (fcfs [] = ([], 0, 0, []) ∧ sjf [] = ([], 0, 0, []) ∧
      priority_scheduling [] = ([], 0, 0, []) ∧
      round_robin [] 5 = .ok ([], 0, 0, [])) :=
  ⟨by decide, C8_empty_input_returns_empty (by decide)⟩

/-- C3 counterexample.  One process of burst 5 under quantum 2: the merged
timeline is the single entry `(pid 1, 0, 5)`, whose length 5 is neither the
quantum 2 nor `5 % 2 = 1` — the claim's segment-length law fails for the
*timeline*, because `round_robin` merges consecutive runs of the same
process (scheduler.py lines 301-305); it holds for the dispatch slices. -/
theorem C3_counterexample :
    (round_robin [Process.make 1 0 5 0] 2).map (fun r => r.1) =
      .ok [⟨.pid 1, 0, 5⟩] ∧
    ¬ ((5 : Int) - 0 = 2 ∨ (5 : Int) - 0 = 5 % 2) := by
  constructor
  · decide
  · decide

/-- C3 (corrected).  Amended statement: at *dispatch-slice* granularity
(the raw log before Gantt-entry merging) the claim holds — for every valid
input and quantum Q ≥ 1, every completed process's slice lengths are some
number of full quanta followed by one final slice of length
`burst % Q`, or `Q` when that remainder is 0. -/
theorem C3_slice_lengths {ps : List Process} {Q : Int}
    (h : ValidInput ps) (hQ : 1 ≤ Q) :
    ∃ sl, round_robin_slices ps Q = some sl ∧
      ∀ g w u c, round_robin ps Q = .ok (g, w, u, c) →
        ∀ p ∈ c, ∃ k : Nat, (slicesFor p.p_id sl).map sliceLen =
          List.replicate k Q ++
            [if p.burst_time % Q = 0 then Q else p.burst_time % Q] := by
  obtain ⟨g₀, sl₀, w₀, u₀, c₀, heq₀, hsl₀, hok⟩ := round_robin_result h hQ
  refine ⟨sl₀, hsl₀, ?_⟩
  intro g w u c heq
  rw [heq₀] at heq
  simp only [Except.ok.injEq, Prod.mk.injEq] at heq
  obtain ⟨rfl, rfl, rfl, rfl⟩ := heq
  intro p hp
  exact hok.compSlices p (mem_sortBy.mp hp)

/-- Witness for the amended C3: burst 5 under quantum 2 dispatches slices
of lengths 2, 2, 1. -/
theorem C3_slice_lengths_witness :
    ValidInput [Process.make 1 0 5 0] ∧
    (∃ sl, round_robin_slices [Process.make 1 0 5 0] 2 = some sl ∧
      ∀ g w u c, round_robin [Process.make 1 0 5 0] 2 = .ok (g, w, u, c) →
        ∀ p ∈ c, ∃ k : Nat, (slicesFor p.p_id sl).map sliceLen =
          List.replicate k 2 ++
            [if p.burst_time % 2 = 0 then 2 else p.burst_time % 2]) :=
  ⟨by decide, C3_slice_lengths (by decide) (by decide)⟩

/-- C4 counterexample.  Two processes with identical arrival 0 and burst 3,
listed with the larger id first: `sjf` runs id 2 before id 1, so burst ties
are *not* broken by smallest id — Python's stable sort keeps the input
(arrival-sorted) order. -/
theorem C4_counterexample :
    (sjf [Process.make 2 0 3 0, Process.make 1 0 3 0]).1 =
      [⟨.pid 2, 0, 3⟩, ⟨.pid 1, 3, 6⟩] ∧
    (Process.make 1 0 3 0).burst_time = (Process.make 2 0 3 0).burst_time ∧
    (Process.make 1 0 3 0).arrival_time = (Process.make 2 0 3 0).arrival_time ∧
    (1 : Int) < 2 := by
  decide

/-- C4 (corrected).  Amended statement: at every decision point `sjf`
selects from the ready set a process with the smallest `burst_time`; among
equal bursts its arrival time is smallest, and the final tie-break is the
position in the arrival-sorted working list (Python's stable sort), *not*
the process id; the selected process then runs to completion without
preemption, producing one timeline segment of exactly its burst. -/
theorem C4_sjf_selection (n fuel : Nat) (remaining : List Process) (t : Int)
    (gantt : List GanttEntry) (tw tt : Int) (comp : List Process)
    (proc : Process)
    (hsorted : remaining.Pairwise fun a b => a.arrival_time ≤ b.arrival_time)
    (hn : ¬ n ≤ comp.length)
    (hready : ¬ (remaining.filter fun p =>
      decide (p.arrival_time ≤ t)).isEmpty = true)
    (hhead : (sortBy byBurst (remaining.filter fun p =>
      decide (p.arrival_time ≤ t))).head? = some proc)
    (hst : proc.start_time = -1)
    (hc : t + proc.burst_time ≠ -1) :
    ((proc ∈ remaining ∧ proc.arrival_time ≤ t) ∧
      (∀ q ∈ remaining, q.arrival_time ≤ t → proc.burst_time ≤ q.burst_time) ∧
      (∀ q ∈ remaining, q.arrival_time ≤ t → proc.burst_time = q.burst_time →
        proc.arrival_time ≤ q.arrival_time) ∧
      (∃ l₁ l₂, remaining.filter (fun p => decide (p.arrival_time ≤ t)) =
        l₁ ++ proc :: l₂ ∧ ∀ q ∈ l₁, proc.burst_time < q.burst_time)) ∧
    npLoop byBurst n (fuel + 1) remaining t gantt tw tt comp =
      npLoop byBurst n fuel (remaining.erase proc) (t + proc.burst_time)
        (gantt ++ [⟨.pid proc.p_id, t, t + proc.burst_time⟩])
        (tw + max 0 (t + proc.burst_time - proc.arrival_time - proc.burst_time))
        (tt + (t + proc.burst_time - proc.arrival_time))
        (comp ++ [{ proc with
          start_time := t
          completion_time := t + proc.burst_time
          turnaround_time := t + proc.burst_time - proc.arrival_time
          waiting_time :=
            max 0 (t + proc.burst_time - proc.arrival_time -
              proc.burst_time) }]) := by
  obtain ⟨hm, hmin, htie, hsp⟩ := npSelect_spec Process.burst_time byBurst
    (fun a b => rfl) hhead
  exact ⟨⟨hm, hmin, htie hsorted, hsp⟩,
    npLoop_dispatch_eq byBurst n fuel remaining t gantt tw tt comp proc hn
      hready hhead hst hc⟩

/-- Witness for the amended C4 at a concrete decision point. -/
theorem C4_sjf_selection_witness :
    Process.make 1 0 2 0 ∈ [Process.make 1 0 2 0, Process.make 2 1 4 0] ∧
    (Process.make 1 0 2 0).arrival_time ≤ 1 :=
  (C4_sjf_selection 2 1 [Process.make 1 0 2 0, Process.make 2 1 4 0] 1 [] 0 0 []
    (Process.make 1 0 2 0) (by decide) (by decide) (by decide) (by decide)
    (by decide) (by decide)).1.1

/-- C5 counterexample.  Two processes with identical arrival 0 and
priority 5, listed with the larger id first: `priority_scheduling` runs
id 2 before id 1, so priority ties are *not* broken by smallest id. -/
theorem C5_counterexample :
    (priority_scheduling [Process.make 2 0 3 5, Process.make 1 0 3 5]).1 =
      [⟨.pid 2, 0, 3⟩, ⟨.pid 1, 3, 6⟩] ∧
    (Process.make 1 0 3 5).priority = (Process.make 2 0 3 5).priority ∧
    (Process.make 1 0 3 5).arrival_time = (Process.make 2 0 3 5).arrival_time ∧
    (1 : Int) < 2 := by
  decide

/-- C5 (corrected).  Amended statement: at every decision point
`priority_scheduling` selects from the ready set a process with the
smallest `priority` value (lower = more urgent); among equal priorities
its arrival time is smallest, and the final tie-break is the position in
the arrival-sorted working list (Python's stable sort), *not* the process
id; the selected process then runs to completion without preemption. -/
theorem C5_priority_selection (n fuel : Nat) (remaining : List Process)
    (t : Int) (gantt : List GanttEntry) (tw tt : Int) (comp : List Process)
    (proc : Process)
    (hsorted : remaining.Pairwise fun a b => a.arrival_time ≤ b.arrival_time)
    (hn : ¬ n ≤ comp.length)
    (hready : ¬ (remaining.filter fun p =>
      decide (p.arrival_time ≤ t)).isEmpty = true)
    (hhead : (sortBy byPriority (remaining.filter fun p =>
      decide (p.arrival_time ≤ t))).head? = some proc)
    (hst : proc.start_time = -1)
    (hc : t + proc.burst_time ≠ -1) :
    ((proc ∈ remaining ∧ proc.arrival_time ≤ t) ∧
      (∀ q ∈ remaining, q.arrival_time ≤ t → proc.priority ≤ q.priority) ∧
      (∀ q ∈ remaining, q.arrival_time ≤ t → proc.priority = q.priority →
        proc.arrival_time ≤ q.arrival_time) ∧
      (∃ l₁ l₂, remaining.filter (fun p => decide (p.arrival_time ≤ t)) =
        l₁ ++ proc :: l₂ ∧ ∀ q ∈ l₁, proc.priority < q.priority)) ∧
    npLoop byPriority n (fuel + 1) remaining t gantt tw tt comp =
      npLoop byPriority n fuel (remaining.erase proc) (t + proc.burst_time)
        (gantt ++ [⟨.pid proc.p_id, t, t + proc.burst_time⟩])
        (tw + max 0 (t + proc.burst_time - proc.arrival_time - proc.burst_time))
        (tt + (t + proc.burst_time - proc.arrival_time))
        (comp ++ [{ proc with
          start_time := t
          completion_time := t + proc.burst_time
          turnaround_time := t + proc.burst_time - proc.arrival_time
          waiting_time :=
            max 0 (t + proc.burst_time - proc.arrival_time -
              proc.burst_time) }]) := by
  obtain ⟨hm, hmin, htie, hsp⟩ := npSelect_spec Process.priority byPriority
    (fun a b => rfl) hhead
  exact ⟨⟨hm, hmin, htie hsorted, hsp⟩,
    npLoop_dispatch_eq byPriority n fuel remaining t gantt tw tt comp proc hn
      hready hhead hst hc⟩

/-- Witness for the amended C5 at a concrete decision point. -/
theorem C5_priority_selection_witness :
    Process.make 2 1 4 1 ∈ [Process.make 1 0 2 3, Process.make 2 1 4 1] ∧
    (Process.make 2 1 4 1).arrival_time ≤ 1 :=
  (C5_priority_selection 2 1 [Process.make 1 0 2 3, Process.make 2 1 4 1] 1
    [] 0 0 [] (Process.make 2 1 4 1) (by decide) (by decide) (by decide)
    (by decide) (by decide) (by decide)).1.1

end Sched
